import Mathlib

/-!
# Verification of `HashMap` (src/unordered_map.h)

A shallow embedding of the C++ class template `HashMap<KeyType, ValueType, Hash>`.

* `std::list<KeyValuePair> elements_` is a list of nodes. A `std::list` iterator is the
  identity of a node; it is modelled by the natural number `addr` stored in the node.
  `push_front` allocates a node with an identity that was never used before
  (the counter `fresh_` of the state), so iterators of different nodes differ.
* `std::vector<TableList> hash_table_` is a list of buckets, each bucket the list of the
  list iterators (node identities) it holds.
* The end iterator of `elements_` is `none`; a `TableListIterator` is a position in its
  bucket, the end iterator being the length of the bucket.
* `size_t` is modelled by `Nat`: the counters and the table size stay far below `2^64`
  in any state that fits in memory.
* `KeyType` has decidable equality (`operator==`), `ValueType` has a default value
  (`ValueType()`), and `Hash` is any function from keys to natural numbers.
-/

set_option linter.unusedSectionVars false

namespace HashMapModel

/-- One node of `elements_`: its identity (what a list iterator points to) and the
stored `std::pair<const KeyType, ValueType>`. -/
structure Node (K V : Type) where
  addr : Nat
  first : K
  second : V

/-- The data members of `HashMap`, and the allocation counter `fresh_` of list nodes. -/
structure HashMap (K V : Type) where
  num_elements_ : Nat
  hash_table_size_ : Nat
  hash_ : K → Nat
  hash_table_ : List (List Nat)
  elements_ : List (Node K V)
  fresh_ : Nat

/-- Constant `initial_size_ = 20`. -/
def initial_size_ : Nat := 20

/-- The call `std::vector::resize(n)` for a vector of buckets: keeps the first `n` buckets and
pads with empty buckets. -/
def resize (t : List (List Nat)) (n : Nat) : List (List Nat) :=
  t.take n ++ List.replicate (n - t.length) []

/-- The access `hash_table_[i]`. -/
def bucketAt (t : List (List Nat)) (i : Nat) : List Nat := t.getD i []

/-- The call `hash_table_[i].push_back(it)`. -/
def push_back_at (t : List (List Nat)) (i : Nat) (it : Nat) : List (List Nat) :=
  t.modify (fun b => b ++ [it]) i

section ops

variable {K V : Type} [DecidableEq K]

/-- Dereferencing a list iterator: the node of `elements_` with that identity. -/
def deref (s : HashMap K V) (it : Nat) : Option (Node K V) :=
  s.elements_.find? (fun n => n.addr == it)

/-- The test `(*elem)->first == key` of `InternalFind`. An iterator that points to no node of
`elements_` (there is none in a bucket of a reachable state) compares unequal. -/
def keyMatches (s : HashMap K V) (key : K) (it : Nat) : Bool :=
  match deref s it with
  | some n => decide (n.first = key)
  | none => false

/-- Constructor `HashMap(const Hash&)`. The members start as `num_elements_ = 0`,
`hash_table_size_ = initial_size_`, empty vector and list; the body resizes the vector. -/
def new (new_hash : K → Nat) : HashMap K V :=
  { num_elements_ := 0
    hash_table_size_ := initial_size_
    hash_ := new_hash
    hash_table_ := resize [] initial_size_
    elements_ := []
    fresh_ := 0 }

/-- Method `InternalFind`: the position in bucket `hash_(key) % hash_table_size_` of the first
iterator whose node has the key, or the length of the bucket (its end iterator). -/
def InternalFind (s : HashMap K V) (key : K) : Nat :=
  let index := s.hash_ key % s.hash_table_size_
  (bucketAt s.hash_table_ index).findIdx (keyMatches s key)

/-- Method `find`: the list iterator stored at the position found, or `none` for `end()`. -/
def find (s : HashMap K V) (key : K) : Option Nat :=
  let hash_table_cell_num := s.hash_ key % s.hash_table_size_
  let element_iterator := InternalFind s key
  if element_iterator ≠ (bucketAt s.hash_table_ hash_table_cell_num).length then
    (bucketAt s.hash_table_ hash_table_cell_num)[element_iterator]?
  else none

/-- The loop of `double_size`: every node of `elements_`, front to back, is pushed to the back
of its bucket under the new size and counted. -/
def double_size_loop (s : HashMap K V) : List (Node K V) → HashMap K V
  | [] => s
  | elem :: rest =>
    let hash_table_cell_num := s.hash_ elem.first % s.hash_table_size_
    double_size_loop
      { s with
        hash_table_ := push_back_at s.hash_table_ hash_table_cell_num elem.addr
        num_elements_ := s.num_elements_ + 1 } rest

/-- Method `double_size`. -/
def double_size (s : HashMap K V) : HashMap K V :=
  let s1 := { s with hash_table_ := [] }
  let s2 := { s1 with hash_table_size_ := s1.hash_table_size_ * 2 }
  let s3 := { s2 with hash_table_ := resize s2.hash_table_ s2.hash_table_size_ }
  let s4 := { s3 with num_elements_ := 0 }
  double_size_loop s4 s4.elements_

/-- Method `check_capacity`. `capacity_factor_` has type `size_t`, so the quotient of the two
counters is truncated to a natural number before it is compared with `load_factor_ = 0.5`;
the comparison `capacity_factor_ >= 0.5` is written `1 ≤ 2 * capacity_factor_`. The
quotient is formed in `double`, which is exact enough for the truncation as long as the
counters are below `2^53`. -/
def check_capacity (s : HashMap K V) : HashMap K V :=
  let capacity_factor_ := s.num_elements_ / s.hash_table_size_
  if 1 ≤ 2 * capacity_factor_ then double_size s else s

/-- Method `insert`. -/
def insert (s : HashMap K V) (new_node : K × V) : HashMap K V :=
  let s1 := check_capacity s
  let hash_table_cell_num := s1.hash_ new_node.1 % s1.hash_table_size_
  match find s1 new_node.1 with
  | none =>
    { s1 with
      num_elements_ := s1.num_elements_ + 1
      elements_ := { addr := s1.fresh_, first := new_node.1, second := new_node.2 } :: s1.elements_
      hash_table_ := push_back_at s1.hash_table_ hash_table_cell_num s1.fresh_
      fresh_ := s1.fresh_ + 1 }
  | some _ => s1

/-- Method `erase`. The position that `InternalFind` returns is at most the length of the
bucket, so when it is not the end iterator the bucket has an iterator at that position and
the last branch of the `match` is never taken. -/
def erase (s : HashMap K V) (key : K) : HashMap K V :=
  let hash_table_cell_num := s.hash_ key % s.hash_table_size_
  let element_iterator := InternalFind s key
  if element_iterator ≠ (bucketAt s.hash_table_ hash_table_cell_num).length then
    match (bucketAt s.hash_table_ hash_table_cell_num)[element_iterator]? with
    | some it =>
      { s with
        elements_ := s.elements_.filter (fun n => n.addr != it)
        hash_table_ := s.hash_table_.modify (fun b => b.eraseIdx element_iterator)
          hash_table_cell_num
        num_elements_ := s.num_elements_ - 1 }
    | none => s
  else s

/-- What a call can end with besides a value: the exception `std::out_of_range`, or the
dereference of an iterator that points to no node. -/
inductive Failure where
  | out_of_range
  | invalid_iterator
  deriving DecidableEq, Repr

/-- The read `element_iterator->second`. -/
def second_of (s : HashMap K V) (it : Nat) : Except Failure V :=
  match deref s it with
  | some n => .ok n.second
  | none => .error Failure.invalid_iterator

/-- Method `at` (a `const` method: it returns a value and no state). -/
def «at» (s : HashMap K V) (key : K) : Except Failure V :=
  match find s key with
  | some element_iterator => second_of s element_iterator
  | none => .error Failure.out_of_range

/-- Method `clear`. The call `elements_.clear()` destroys every node, so no node identity
is in use afterwards and the allocation counter starts again. -/
def clear (s : HashMap K V) : HashMap K V :=
  let s1 := { s with num_elements_ := 0 }
  let s2 := { s1 with hash_table_ := [] }
  let s3 := { s2 with elements_ := [], fresh_ := 0 }
  let s4 := { s3 with hash_table_size_ := initial_size_ }
  { s4 with hash_table_ := resize s4.hash_table_ s4.hash_table_size_ }

/-- Method `operator[]`: the state afterwards and the value read through the returned
reference. -/
def operator_subscript [Inhabited V] (s : HashMap K V) (key : K) :
    HashMap K V × Except Failure V :=
  match find s key with
  | some element_iterator => (s, second_of s element_iterator)
  | none =>
    let s1 := insert s (key, default)
    match find s1 key with
    | some it => (s1, second_of s1 it)
    | none => (s1, .error Failure.invalid_iterator)

/-- The loops `for (auto element : ...) insert(element)` of the constructors and of
`operator=`. -/
def insert_all (s : HashMap K V) : List (K × V) → HashMap K V
  | [] => s
  | element :: rest => insert_all (insert s element) rest

/-- Iterating `begin()..end()`: the pairs of `elements_`, front to back. -/
def iterate (s : HashMap K V) : List (K × V) :=
  s.elements_.map (fun n => (n.first, n.second))

/-- Constructor `HashMap(InputIterator first, InputIterator second, const Hash&)`, the range
given as the list of its pairs. -/
def from_range (range : List (K × V)) (new_hash : K → Nat) : HashMap K V :=
  insert_all (new new_hash) range

/-- Constructor `HashMap(std::initializer_list<KeyValuePair>, const Hash&)`. -/
def from_initializer_list (list_element : List (K × V)) (new_hash : K → Nat) : HashMap K V :=
  insert_all (new new_hash) list_element

/-- Copy constructor `HashMap(const HashMap& other)`. -/
def copy (other : HashMap K V) : HashMap K V :=
  insert_all (new other.hash_) (iterate other)

/-- Method `operator=` for `this != &other`. -/
def operator_assign (s other : HashMap K V) : HashMap K V :=
  let s1 := { s with hash_ := other.hash_ }
  insert_all (clear s1) (iterate other)

/-- Method `size`. -/
def size (s : HashMap K V) : Nat := s.num_elements_

/-- Method `empty`. -/
def empty (s : HashMap K V) : Bool := s.num_elements_ == 0

end ops

/-! ## Sequences of calls and reachable states -/

section reach

variable {K V : Type} [DecidableEq K] [Inhabited V]

/-- A call of one of the mutating methods `insert`, `erase`, `operator[]`. -/
inductive Op (K V : Type) where
  | insert (new_node : K × V)
  | erase (key : K)
  | subscript (key : K)

/-- The state after one call. -/
def step (s : HashMap K V) : Op K V → HashMap K V
  | .insert new_node => insert s new_node
  | .erase key => erase s key
  | .subscript key => (operator_subscript s key).1

/-- The state after a sequence of calls, first call first. -/
def run (s : HashMap K V) : List (Op K V) → HashMap K V
  | [] => s
  | op :: rest => run (step s op) rest

/-- Written from the specification, not from the code: the live entries in the order in which
they were (last) inserted, oldest first. An insertion of an absent key (by `insert`, or by
`operator[]` with the default value) puts the entry at the end; an insertion of a present key
changes nothing; `erase` removes the entry of the key and keeps the order of the others. -/
def insertion_order_step (log : List (K × V)) : Op K V → List (K × V)
  | .insert new_node =>
    if new_node.1 ∈ log.map Prod.fst then log else log ++ [new_node]
  | .erase key => log.filter (fun p => !decide (p.1 = key))
  | .subscript key =>
    if key ∈ log.map Prod.fst then log else log ++ [(key, default)]

/-- Written from the specification: the insertion order of the live entries after a sequence
of calls on a log. -/
def insertion_order (log : List (K × V)) : List (Op K V) → List (K × V)
  | [] => log
  | op :: rest => insertion_order (insertion_order_step log op) rest

/-- The states that the public operations produce: the three constructors from data, the copy
constructor, `operator=`, `insert`, `operator[]`, `erase` and `clear`. -/
inductive Reachable : HashMap K V → Prop where
  | new (new_hash : K → Nat) : Reachable (new new_hash)
  | from_range (range : List (K × V)) (new_hash : K → Nat) :
      Reachable (from_range range new_hash)
  | from_initializer_list (list_element : List (K × V)) (new_hash : K → Nat) :
      Reachable (from_initializer_list list_element new_hash)
  | copy {other : HashMap K V} : Reachable other → Reachable (copy other)
  | operator_assign {s other : HashMap K V} :
      Reachable s → Reachable other → Reachable (operator_assign s other)
  | insert {s : HashMap K V} (new_node : K × V) : Reachable s → Reachable (insert s new_node)
  | operator_subscript {s : HashMap K V} (key : K) :
      Reachable s → Reachable (operator_subscript s key).1
  | erase {s : HashMap K V} (key : K) : Reachable s → Reachable (erase s key)
  | clear {s : HashMap K V} : Reachable s → Reachable (clear s)

end reach


/-! ## Example states -/

/-- A small map of natural numbers built from a range with a repeated key. -/
def small_map : HashMap Nat Nat :=
  from_range [(1, 10), (2, 20), (1, 30)] (fun k => k)

/-- The map built from the twenty-one keys `0 .. 20`: its table has grown once. -/
def grown_map : HashMap Nat Nat :=
  from_range ((List.range 21).map (fun i => (i, 2 * i))) (fun k => k)

/-- The map built from the twenty keys `0 .. 19`. -/
def full_map : HashMap Nat Nat :=
  from_range ((List.range 20).map (fun i => (i, 0))) (fun k => k)

/-- The map built from the nine keys `0 .. 8`. -/
def nine_map : HashMap Nat Nat :=
  from_range ((List.range 9).map (fun i => (i, 0))) (fun k => k)

/-- The map built from the ten keys `0 .. 9`. -/
def ten_map : HashMap Nat Nat :=
  from_range ((List.range 10).map (fun i => (i, 0))) (fun k => k)

/-! ## The representation invariant: definitions -/

section invariant_defs

variable {K V : Type} [DecidableEq K]

/-- Key `k` is the key of an entry of the entry list. -/
def present (s : HashMap K V) (k : K) : Prop := ∃ n ∈ s.elements_, n.first = k

instance (s : HashMap K V) (k : K) : Decidable (present s k) := by
  unfold present
  infer_instance

/-- The invariant that links the entry list, the buckets and the counters. -/
structure Inv (s : HashMap K V) : Prop where
  size_pow : ∃ j, s.hash_table_size_ = initial_size_ * 2 ^ j
  table_len : s.hash_table_.length = s.hash_table_size_
  num_eq : s.num_elements_ = s.elements_.length
  num_le : s.num_elements_ ≤ s.hash_table_size_
  addr_lt : ∀ n ∈ s.elements_, n.addr < s.fresh_
  addr_nodup : (s.elements_.map Node.addr).Nodup
  keys_nodup : (s.elements_.map Node.first).Nodup
  sound : ∀ i it, it ∈ bucketAt s.hash_table_ i →
    ∃ n ∈ s.elements_, n.addr = it ∧ s.hash_ n.first % s.hash_table_size_ = i
  complete : ∀ n ∈ s.elements_,
    n.addr ∈ bucketAt s.hash_table_ (s.hash_ n.first % s.hash_table_size_)
  bucket_nodup : ∀ i, (bucketAt s.hash_table_ i).Nodup

end invariant_defs

/-! ## The consistency of the entry list and the buckets -/

/-- The index/log consistency invariant: the counter is the length of the entry list and the
sum of the lengths of the buckets; the vector has `hash_table_size_` buckets; the nodes of
the list are distinct objects (no two nodes have the same iterator); every entry is
referenced exactly once, in the bucket of index `hash_(key) % hash_table_size_` and in no
other; and every iterator in a bucket points to an entry of the list. -/
structure Consistent {K V : Type} (s : HashMap K V) : Prop where
  num_eq_length : s.num_elements_ = s.elements_.length
  num_eq_sum : s.num_elements_ = (s.hash_table_.map List.length).sum
  table_len : s.hash_table_.length = s.hash_table_size_
  nodes_distinct : (s.elements_.map Node.addr).Nodup
  once : ∀ n ∈ s.elements_, ∀ i,
    (bucketAt s.hash_table_ i).count n.addr
      = if i = s.hash_ n.first % s.hash_table_size_ then 1 else 0
  no_stale : ∀ i it, it ∈ bucketAt s.hash_table_ i → ∃ n ∈ s.elements_, n.addr = it

/-! ## Buckets -/

theorem resize_nil (n : Nat) : resize [] n = List.replicate n [] := by
  simp [resize]

theorem bucketAt_replicate (n i : Nat) : bucketAt (List.replicate n []) i = [] := by
  unfold bucketAt
  rw [List.getD_eq_getElem?_getD, List.getElem?_replicate]
  split <;> rfl

theorem length_push_back_at (t : List (List Nat)) (i it : Nat) :
    (push_back_at t i it).length = t.length := by
  simp [push_back_at]

theorem bucketAt_modify (f : List Nat → List Nat) (t : List (List Nat)) (i j : Nat)
    (hi : i < t.length) :
    bucketAt (t.modify f i) j = if j = i then f (bucketAt t i) else bucketAt t j := by
  unfold bucketAt
  simp only [List.getD_eq_getElem?_getD, List.getElem?_modify]
  by_cases h : j = i
  · subst h
    simp [List.getElem?_eq_getElem hi]
  · have h2 : ¬ i = j := fun e => h e.symm
    simp [h, h2]

theorem bucketAt_push_back_at (t : List (List Nat)) (i j it : Nat) (hi : i < t.length) :
    bucketAt (push_back_at t i it) j = if j = i then bucketAt t i ++ [it] else bucketAt t j :=
  bucketAt_modify _ t i j hi

/-! ## The representation invariant -/

section invariant

variable {K V : Type} [DecidableEq K]

theorem Inv.size_pos {s : HashMap K V} (h : Inv s) : 0 < s.hash_table_size_ := by
  obtain ⟨j, hj⟩ := h.size_pow
  rw [hj]
  have : 0 < 2 ^ j := by positivity
  simp [initial_size_]

theorem Inv.cell_lt {s : HashMap K V} (h : Inv s) (k : K) :
    s.hash_ k % s.hash_table_size_ < s.hash_table_.length := by
  rw [h.table_len]
  exact Nat.mod_lt _ h.size_pos

theorem deref_of_mem {s : HashMap K V} (h : Inv s) {n : Node K V} (hn : n ∈ s.elements_) :
    deref s n.addr = some n := by
  unfold deref
  cases hf : s.elements_.find? (fun m => m.addr == n.addr) with
  | none =>
    rw [List.find?_eq_none] at hf
    exact absurd (by simp) (hf n hn)
  | some m =>
    have hm := List.mem_of_find?_eq_some hf
    have hp := List.find?_some hf
    have : m = n := List.inj_on_of_nodup_map h.addr_nodup hm hn (by simpa using hp)
    rw [this]

theorem deref_some {s : HashMap K V} {it : Nat} {n : Node K V} (hd : deref s it = some n) :
    n ∈ s.elements_ ∧ n.addr = it := by
  unfold deref at hd
  exact ⟨List.mem_of_find?_eq_some hd, by simpa using List.find?_some hd⟩

theorem keyMatches_iff {s : HashMap K V} (h : Inv s) (k : K) {n : Node K V}
    (hn : n ∈ s.elements_) : keyMatches s k n.addr = true ↔ n.first = k := by
  simp [keyMatches, deref_of_mem h hn]

theorem same_of_first {s : HashMap K V} (h : Inv s) {n m : Node K V} (hn : n ∈ s.elements_)
    (hm : m ∈ s.elements_) (e : n.first = m.first) : n = m :=
  List.inj_on_of_nodup_map h.keys_nodup hn hm e

theorem same_of_addr {s : HashMap K V} (h : Inv s) {n m : Node K V} (hn : n ∈ s.elements_)
    (hm : m ∈ s.elements_) (e : n.addr = m.addr) : n = m :=
  List.inj_on_of_nodup_map h.addr_nodup hn hm e

/-- The position that `InternalFind` returns holds the iterator of the entry with the key. -/
theorem InternalFind_of_mem {s : HashMap K V} (h : Inv s) {n : Node K V}
    (hn : n ∈ s.elements_) :
    InternalFind s n.first < (bucketAt s.hash_table_ (s.hash_ n.first % s.hash_table_size_)).length
      ∧ (bucketAt s.hash_table_ (s.hash_ n.first % s.hash_table_size_))[InternalFind s n.first]?
        = some n.addr := by
  have hex : ∃ x ∈ bucketAt s.hash_table_ (s.hash_ n.first % s.hash_table_size_),
      keyMatches s n.first x = true :=
    ⟨n.addr, h.complete n hn, (keyMatches_iff h n.first hn).2 rfl⟩
  have hlt : InternalFind s n.first
      < (bucketAt s.hash_table_ (s.hash_ n.first % s.hash_table_size_)).length :=
    List.findIdx_lt_length_of_exists hex
  refine ⟨hlt, ?_⟩
  rw [List.getElem?_eq_getElem hlt]
  have hp : keyMatches s n.first
      ((bucketAt s.hash_table_ (s.hash_ n.first % s.hash_table_size_))[InternalFind s n.first])
        = true := List.findIdx_getElem
  obtain ⟨m, hm, hma, -⟩ := h.sound _ _ (List.getElem_mem hlt)
  rw [← hma] at hp ⊢
  have : m.first = n.first := (keyMatches_iff h n.first hm).1 hp
  rw [same_of_first h hm hn this]

theorem InternalFind_of_absent {s : HashMap K V} (h : Inv s) {k : K} (hk : ¬ present s k) :
    InternalFind s k = (bucketAt s.hash_table_ (s.hash_ k % s.hash_table_size_)).length := by
  unfold InternalFind
  apply List.findIdx_eq_length_of_false
  intro x hx
  obtain ⟨m, hm, hma, -⟩ := h.sound _ _ hx
  cases hkm : keyMatches s k x with
  | false => rfl
  | true =>
    rw [← hma] at hkm
    exact absurd ⟨m, hm, (keyMatches_iff h k hm).1 hkm⟩ hk

theorem find_of_mem {s : HashMap K V} (h : Inv s) {n : Node K V} (hn : n ∈ s.elements_) :
    find s n.first = some n.addr := by
  obtain ⟨hlt, hget⟩ := InternalFind_of_mem h hn
  unfold find
  simp only [ne_eq, Nat.ne_of_lt hlt, not_false_eq_true, if_true]
  exact hget

theorem find_of_absent {s : HashMap K V} (h : Inv s) {k : K} (hk : ¬ present s k) :
    find s k = none := by
  unfold find
  simp [InternalFind_of_absent h hk]

theorem find_eq_none_iff {s : HashMap K V} (h : Inv s) (k : K) :
    find s k = none ↔ ¬ present s k := by
  constructor
  · intro hf ⟨n, hn, hk⟩
    rw [← hk, find_of_mem h hn] at hf
    cases hf
  · exact find_of_absent h

theorem find_eq_some_iff {s : HashMap K V} (h : Inv s) (k : K) (it : Nat) :
    find s k = some it ↔ ∃ n ∈ s.elements_, n.addr = it ∧ n.first = k := by
  constructor
  · intro hf
    by_cases hp : present s k
    · obtain ⟨n, hn, hk⟩ := hp
      rw [← hk, find_of_mem h hn] at hf
      exact ⟨n, hn, by simpa using hf, hk⟩
    · rw [find_of_absent h hp] at hf
      cases hf
  · rintro ⟨n, hn, ha, hk⟩
    rw [← hk, ← ha]
    exact find_of_mem h hn

/-! ## `double_size` and `check_capacity` -/

theorem double_size_loop_frame (l : List (Node K V)) (s : HashMap K V) :
    (double_size_loop s l).elements_ = s.elements_
      ∧ (double_size_loop s l).fresh_ = s.fresh_
      ∧ (double_size_loop s l).hash_ = s.hash_
      ∧ (double_size_loop s l).hash_table_size_ = s.hash_table_size_
      ∧ (double_size_loop s l).num_elements_ = s.num_elements_ + l.length
      ∧ (double_size_loop s l).hash_table_.length = s.hash_table_.length := by
  induction l generalizing s with
  | nil => simp [double_size_loop]
  | cons elem rest ih =>
    obtain ⟨h1, h2, h3, h4, h5, h6⟩ := ih
      { s with
        hash_table_ := push_back_at s.hash_table_ (s.hash_ elem.first % s.hash_table_size_)
          elem.addr
        num_elements_ := s.num_elements_ + 1 }
    simp only [double_size_loop]
    refine ⟨h1, h2, h3, h4, ?_, ?_⟩
    · rw [h5]
      simp only [List.length_cons]
      omega
    · rw [h6]
      exact length_push_back_at _ _ _

theorem double_size_loop_bucket (l : List (Node K V)) (s : HashMap K V)
    (hpos : 0 < s.hash_table_size_) (hlen : s.hash_table_.length = s.hash_table_size_)
    (i : Nat) :
    bucketAt (double_size_loop s l).hash_table_ i
      = bucketAt s.hash_table_ i
        ++ (l.filter (fun n => decide (s.hash_ n.first % s.hash_table_size_ = i))).map
            Node.addr := by
  induction l generalizing s with
  | nil => simp [double_size_loop]
  | cons elem rest ih =>
    have hc : s.hash_ elem.first % s.hash_table_size_ < s.hash_table_.length := by
      rw [hlen]
      exact Nat.mod_lt _ hpos
    simp only [double_size_loop]
    have hrec := ih
      { s with
        hash_table_ := push_back_at s.hash_table_ (s.hash_ elem.first % s.hash_table_size_)
          elem.addr
        num_elements_ := s.num_elements_ + 1 } hpos (by simp [length_push_back_at, hlen])
    rw [hrec]
    simp only [bucketAt_push_back_at _ _ _ _ hc, List.filter_cons]
    by_cases hi : i = s.hash_ elem.first % s.hash_table_size_
    · subst hi
      simp
    · have hi2 : ¬ s.hash_ elem.first % s.hash_table_size_ = i := fun e => hi e.symm
      simp [hi, hi2]

theorem double_size_frame (s : HashMap K V) :
    (double_size s).elements_ = s.elements_
      ∧ (double_size s).fresh_ = s.fresh_
      ∧ (double_size s).hash_ = s.hash_
      ∧ (double_size s).hash_table_size_ = s.hash_table_size_ * 2
      ∧ (double_size s).num_elements_ = s.elements_.length
      ∧ (double_size s).hash_table_.length = s.hash_table_size_ * 2 := by
  unfold double_size
  obtain ⟨h1, h2, h3, h4, h5, h6⟩ := double_size_loop_frame s.elements_
    { s with
      hash_table_ := resize [] (s.hash_table_size_ * 2)
      hash_table_size_ := s.hash_table_size_ * 2
      num_elements_ := 0 }
  refine ⟨h1, h2, h3, h4, ?_, ?_⟩
  · simpa using h5
  · rw [h6]
    simp [resize_nil]

theorem double_size_bucket (s : HashMap K V) (hpos : 0 < s.hash_table_size_) (i : Nat) :
    bucketAt (double_size s).hash_table_ i
      = (s.elements_.filter
          (fun n => decide (s.hash_ n.first % (s.hash_table_size_ * 2) = i))).map Node.addr := by
  have h0 : double_size s = double_size_loop
      { s with
        hash_table_ := resize [] (s.hash_table_size_ * 2)
        hash_table_size_ := s.hash_table_size_ * 2
        num_elements_ := 0 } s.elements_ := rfl
  rw [h0, double_size_loop_bucket _ _ (by simpa using hpos) (by simp [resize_nil]) i]
  simp [resize_nil, bucketAt_replicate]

theorem Inv.double_size {s : HashMap K V} (h : Inv s) : Inv (double_size s) := by
  obtain ⟨h1, h2, h3, h4, h5, h6⟩ := double_size_frame s
  have hb := double_size_bucket s h.size_pos
  constructor
  · obtain ⟨j, hj⟩ := h.size_pow
    exact ⟨j + 1, by rw [h4, hj, pow_succ, Nat.mul_assoc]⟩
  · rw [h6, h4]
  · rw [h5, h1]
  · rw [h5, h4, ← h.num_eq]
    have := h.num_le
    omega
  · rw [h1, h2]
    exact h.addr_lt
  · rw [h1]
    exact h.addr_nodup
  · rw [h1]
    exact h.keys_nodup
  · intro i it hit
    rw [hb i, List.mem_map] at hit
    obtain ⟨n, hn, ha⟩ := hit
    rw [List.mem_filter] at hn
    rw [h1, h3, h4]
    exact ⟨n, hn.1, ha, by simpa using hn.2⟩
  · intro n hn
    rw [h1] at hn
    rw [h3, h4, hb, List.mem_map]
    exact ⟨n, by simp [List.mem_filter, hn], rfl⟩
  · intro i
    rw [hb i]
    exact h.addr_nodup.sublist (List.Sublist.map _ (List.filter_sublist _))

theorem check_capacity_eq (s : HashMap K V) (hpos : 0 < s.hash_table_size_) :
    check_capacity s
      = if s.hash_table_size_ ≤ s.num_elements_ then double_size s else s := by
  unfold check_capacity
  have hiff : 1 ≤ 2 * (s.num_elements_ / s.hash_table_size_)
      ↔ s.hash_table_size_ ≤ s.num_elements_ := by
    rw [← Nat.one_le_div_iff hpos]
    omega
  by_cases hc : s.hash_table_size_ ≤ s.num_elements_
  · simp [hc, hiff.2 hc]
  · have : ¬ 1 ≤ 2 * (s.num_elements_ / s.hash_table_size_) := fun e => hc (hiff.1 e)
    simp [hc, this]

theorem check_capacity_frame {s : HashMap K V} (h : Inv s) :
    (check_capacity s).elements_ = s.elements_
      ∧ (check_capacity s).fresh_ = s.fresh_
      ∧ (check_capacity s).hash_ = s.hash_
      ∧ (check_capacity s).num_elements_ = s.num_elements_
      ∧ (check_capacity s).num_elements_ < (check_capacity s).hash_table_size_ := by
  rw [check_capacity_eq s h.size_pos]
  obtain ⟨h1, h2, h3, h4, h5, -⟩ := double_size_frame s
  have hpos := h.size_pos
  have hnum := h.num_eq
  have hle := h.num_le
  split
  · refine ⟨h1, h2, h3, ?_, ?_⟩
    · rw [h5, hnum]
    · rw [h5, h4, ← hnum]
      omega
  · exact ⟨rfl, rfl, rfl, rfl, by omega⟩

theorem Inv.check_capacity {s : HashMap K V} (h : Inv s) : Inv (check_capacity s) := by
  rw [check_capacity_eq s h.size_pos]
  split
  · exact h.double_size
  · exact h

/-! ## `insert` -/

theorem present_check_capacity {s : HashMap K V} (h : Inv s) (k : K) :
    present (check_capacity s) k ↔ present s k := by
  unfold present
  rw [(check_capacity_frame h).1]

theorem insert_of_present {s : HashMap K V} (h : Inv s) {k : K} (hp : present s k) (v : V) :
    insert s (k, v) = check_capacity s := by
  obtain ⟨n, hn, hk⟩ := (present_check_capacity h k).2 hp
  unfold insert
  simp only
  rw [← hk, find_of_mem h.check_capacity hn]

theorem insert_of_absent {s : HashMap K V} (h : Inv s) {k : K} (hp : ¬ present s k) (v : V) :
    insert s (k, v) =
      { check_capacity s with
        num_elements_ := (check_capacity s).num_elements_ + 1
        elements_ := { addr := (check_capacity s).fresh_, first := k, second := v }
          :: (check_capacity s).elements_
        hash_table_ := push_back_at (check_capacity s).hash_table_
          ((check_capacity s).hash_ k % (check_capacity s).hash_table_size_)
          (check_capacity s).fresh_
        fresh_ := (check_capacity s).fresh_ + 1 } := by
  have hp1 : ¬ present (check_capacity s) k := fun e => hp ((present_check_capacity h k).1 e)
  unfold insert
  simp only
  rw [find_of_absent h.check_capacity hp1]

/-- Pushing a new entry with an absent key keeps the invariant, when there is room. -/
theorem Inv.push {s : HashMap K V} (h : Inv s) {k : K} (hp : ¬ present s k) (v : V)
    (hroom : s.num_elements_ < s.hash_table_size_) :
    Inv { s with
      num_elements_ := s.num_elements_ + 1
      elements_ := { addr := s.fresh_, first := k, second := v } :: s.elements_
      hash_table_ := push_back_at s.hash_table_ (s.hash_ k % s.hash_table_size_) s.fresh_
      fresh_ := s.fresh_ + 1 } := by
  have hc := h.cell_lt k
  have hfresh : ∀ i, s.fresh_ ∉ bucketAt s.hash_table_ i := by
    intro i hi
    obtain ⟨n, hn, ha, -⟩ := h.sound i _ hi
    have := h.addr_lt n hn
    omega
  constructor
  · exact h.size_pow
  · simp only [length_push_back_at]
    exact h.table_len
  · simp only [List.length_cons]
    rw [h.num_eq]
  · simp only
    omega
  · intro n hn
    simp only [List.mem_cons] at hn
    rcases hn with rfl | hn
    · simp
    · have := h.addr_lt n hn
      simp only
      omega
  · simp only [List.map_cons, List.nodup_cons]
    refine ⟨?_, h.addr_nodup⟩
    intro hmem
    rw [List.mem_map] at hmem
    obtain ⟨n, hn, ha⟩ := hmem
    have := h.addr_lt n hn
    omega
  · simp only [List.map_cons, List.nodup_cons]
    refine ⟨?_, h.keys_nodup⟩
    intro hmem
    rw [List.mem_map] at hmem
    obtain ⟨n, hn, hk⟩ := hmem
    exact hp ⟨n, hn, hk⟩
  · intro i it hit
    simp only [bucketAt_push_back_at _ _ _ _ hc] at hit
    split at hit
    · rename_i hi
      rw [List.mem_append, List.mem_singleton] at hit
      rcases hit with hit | rfl
      · obtain ⟨n, hn, ha, hh⟩ := h.sound _ _ hit
        exact ⟨n, List.mem_cons_of_mem _ hn, ha, by rw [hi]; exact hh⟩
      · exact ⟨_, List.mem_cons_self _ _, rfl, hi.symm⟩
    · obtain ⟨n, hn, ha, hh⟩ := h.sound _ _ hit
      exact ⟨n, List.mem_cons_of_mem _ hn, ha, hh⟩
  · intro n hn
    simp only [List.mem_cons] at hn
    simp only [bucketAt_push_back_at _ _ _ _ hc]
    rcases hn with rfl | hn
    · simp
    · split
      · rename_i hi
        rw [← hi]
        exact List.mem_append_left _ (h.complete n hn)
      · exact h.complete n hn
  · intro i
    simp only [bucketAt_push_back_at _ _ _ _ hc]
    split
    · rw [List.nodup_append]
      refine ⟨h.bucket_nodup _, List.nodup_singleton _, ?_⟩
      intro a ha hb
      rw [List.mem_singleton] at hb
      subst hb
      exact hfresh _ ha
    · exact h.bucket_nodup i

theorem Inv.insert {s : HashMap K V} (h : Inv s) (p : K × V) : Inv (insert s p) := by
  obtain ⟨k, v⟩ := p
  by_cases hp : present s k
  · rw [insert_of_present h hp]
    exact h.check_capacity
  · rw [insert_of_absent h hp]
    exact h.check_capacity.push (fun e => hp ((present_check_capacity h k).1 e)) v
      (check_capacity_frame h).2.2.2.2

theorem iterate_insert {s : HashMap K V} (h : Inv s) (k : K) (v : V) :
    iterate (insert s (k, v))
      = if k ∈ (iterate s).map Prod.fst then iterate s else (k, v) :: iterate s := by
  have hmem : k ∈ (iterate s).map Prod.fst ↔ present s k := by
    simp [iterate, present]
  by_cases hp : present s k
  · rw [insert_of_present h hp, if_pos (hmem.2 hp)]
    simp [iterate, (check_capacity_frame h).1]
  · rw [insert_of_absent h hp, if_neg (fun e => hp (hmem.1 e))]
    simp [iterate, (check_capacity_frame h).1]

theorem size_insert {s : HashMap K V} (h : Inv s) (k : K) (v : V) :
    size (insert s (k, v)) = if present s k then size s else size s + 1 := by
  by_cases hp : present s k
  · rw [insert_of_present h hp, if_pos hp]
    exact (check_capacity_frame h).2.2.2.1
  · rw [insert_of_absent h hp, if_neg hp]
    simp [size, (check_capacity_frame h).2.2.2.1]

/-! ## `erase` -/

theorem mem_eraseIdx_of_nodup {l : List Nat} (hl : l.Nodup) {i a : Nat} (hi : l[i]? = some a)
    (x : Nat) : x ∈ l.eraseIdx i ↔ x ∈ l ∧ x ≠ a := by
  have hlt : i < l.length := by
    by_contra hge
    rw [List.getElem?_eq_none (by omega)] at hi
    cases hi
  rw [List.mem_eraseIdx_iff_getElem?]
  constructor
  · rintro ⟨j, hj, hx⟩
    refine ⟨List.mem_iff_getElem?.2 ⟨j, hx⟩, ?_⟩
    intro e
    subst e
    exact hj (List.getElem?_inj hlt hl (hi.trans hx.symm)).symm
  · rintro ⟨hx, hne⟩
    obtain ⟨j, hj⟩ := List.mem_iff_getElem?.1 hx
    refine ⟨j, ?_, hj⟩
    intro e
    subst e
    rw [hi] at hj
    exact hne (Option.some.inj hj).symm

theorem length_filter_addr {l : List (Node K V)} (hl : (l.map Node.addr).Nodup)
    {n : Node K V} (hn : n ∈ l) :
    (l.filter (fun m => m.addr != n.addr)).length + 1 = l.length := by
  induction l with
  | nil => cases hn
  | cons m rest ih =>
    simp only [List.map_cons, List.nodup_cons, List.mem_map, not_exists, not_and] at hl
    rcases List.mem_cons.1 hn with rfl | hn2
    · have hall : ∀ x ∈ rest, (x.addr != n.addr) = true := by
        intro x hx
        have := hl.1 x hx
        simpa using this
      simp [List.filter_cons, List.filter_eq_self.2 hall]
    · have hne : (m.addr != n.addr) = true := by
        have := hl.1 n hn2
        simp only [bne_iff_ne, ne_eq]
        exact fun e => this e.symm
      simp [List.filter_cons, hne, ih hl.2 hn2]

theorem erase_of_absent {s : HashMap K V} (h : Inv s) {k : K} (hp : ¬ present s k) :
    erase s k = s := by
  unfold erase
  simp [InternalFind_of_absent h hp]

theorem erase_of_mem {s : HashMap K V} (h : Inv s) {n : Node K V} (hn : n ∈ s.elements_) :
    erase s n.first =
      { s with
        elements_ := s.elements_.filter (fun m => m.addr != n.addr)
        hash_table_ := s.hash_table_.modify (fun b => b.eraseIdx (InternalFind s n.first))
          (s.hash_ n.first % s.hash_table_size_)
        num_elements_ := s.num_elements_ - 1 } := by
  obtain ⟨hlt, hget⟩ := InternalFind_of_mem h hn
  unfold erase
  simp only [ne_eq, Nat.ne_of_lt hlt, not_false_eq_true, if_true, hget]

theorem filter_addr_eq_filter_first {s : HashMap K V} (h : Inv s) {n : Node K V}
    (hn : n ∈ s.elements_) :
    s.elements_.filter (fun m => m.addr != n.addr)
      = s.elements_.filter (fun m => !decide (m.first = n.first)) := by
  apply List.filter_congr
  intro m hm
  by_cases e : m.first = n.first
  · have := same_of_first h hm hn e
    simp [this]
  · have : m.addr ≠ n.addr := fun ea => e (by rw [same_of_addr h hm hn ea])
    simp [e, this]

theorem Inv.erase {s : HashMap K V} (h : Inv s) (k : K) : Inv (erase s k) := by
  by_cases hp : present s k
  swap
  · rw [erase_of_absent h hp]
    exact h
  obtain ⟨n, hn, rfl⟩ := hp
  obtain ⟨hlt, hget⟩ := InternalFind_of_mem h hn
  have hc := h.cell_lt n.first
  have hmemb := mem_eraseIdx_of_nodup (h.bucket_nodup _) hget
  rw [erase_of_mem h hn]
  constructor
  · exact h.size_pow
  · simp only [List.length_modify]
    exact h.table_len
  · have := length_filter_addr h.addr_nodup hn
    have := h.num_eq
    simp only
    omega
  · have := h.num_le
    simp only
    omega
  · intro m hm
    exact h.addr_lt m (List.mem_filter.1 hm).1
  · exact h.addr_nodup.sublist (List.Sublist.map _ (List.filter_sublist _))
  · exact h.keys_nodup.sublist (List.Sublist.map _ (List.filter_sublist _))
  · intro i it hit
    simp only [bucketAt_modify _ _ _ _ hc] at hit
    split at hit
    · rename_i hi
      obtain ⟨hin, hne⟩ := (hmemb it).1 hit
      obtain ⟨m, hm, ha, hh⟩ := h.sound _ _ hin
      refine ⟨m, List.mem_filter.2 ⟨hm, ?_⟩, ha, by rw [hi]; exact hh⟩
      simp only [bne_iff_ne, ne_eq]
      rw [ha]
      exact hne
    · rename_i hi
      obtain ⟨m, hm, ha, hh⟩ := h.sound _ _ hit
      refine ⟨m, List.mem_filter.2 ⟨hm, ?_⟩, ha, hh⟩
      simp only [bne_iff_ne, ne_eq]
      intro e
      have := same_of_addr h hm hn e
      subst this
      exact hi hh.symm
  · intro m hm
    obtain ⟨hm1, hm2⟩ := List.mem_filter.1 hm
    simp only [bne_iff_ne, ne_eq] at hm2
    simp only [bucketAt_modify _ _ _ _ hc]
    split
    · rename_i hi
      rw [hmemb]
      refine ⟨?_, hm2⟩
      rw [← hi]
      exact h.complete m hm1
    · exact h.complete m hm1
  · intro i
    simp only [bucketAt_modify _ _ _ _ hc]
    split
    · exact (h.bucket_nodup _).eraseIdx _
    · exact h.bucket_nodup i

theorem iterate_erase {s : HashMap K V} (h : Inv s) (k : K) :
    iterate (erase s k) = (iterate s).filter (fun p => !decide (p.1 = k)) := by
  by_cases hp : present s k
  · obtain ⟨n, hn, rfl⟩ := hp
    rw [erase_of_mem h hn]
    simp only [iterate, filter_addr_eq_filter_first h hn, List.filter_map]
    rfl
  · rw [erase_of_absent h hp]
    symm
    apply List.filter_eq_self.2
    intro p hp2
    simp only [iterate, List.mem_map] at hp2
    obtain ⟨m, hm, rfl⟩ := hp2
    have : m.first ≠ k := fun e => hp ⟨m, hm, e⟩
    simp [this]

/-! ## `clear`, the constructors and `operator=` -/

theorem Inv.new (new_hash : K → Nat) : Inv (new new_hash : HashMap K V) := by
  constructor
  · exact ⟨0, by simp [HashMapModel.new]⟩
  · simp [HashMapModel.new, resize_nil]
  · simp [HashMapModel.new]
  · simp [HashMapModel.new]
  · intro n hn
    simp [HashMapModel.new] at hn
  · simp [HashMapModel.new]
  · simp [HashMapModel.new]
  · intro i it hit
    simp [HashMapModel.new, resize_nil, bucketAt_replicate] at hit
  · intro n hn
    simp [HashMapModel.new] at hn
  · intro i
    simp [HashMapModel.new, resize_nil, bucketAt_replicate]

theorem clear_eq (s : HashMap K V) : clear s = new s.hash_ := rfl

theorem Inv.clear (s : HashMap K V) : Inv (clear s) := by
  rw [clear_eq]
  exact Inv.new _

theorem Inv.insert_all (l : List (K × V)) {s : HashMap K V} (h : Inv s) :
    Inv (insert_all s l) := by
  induction l generalizing s with
  | nil => exact h
  | cons p rest ih => exact ih (h.insert p)

theorem Inv.copy (other : HashMap K V) : Inv (copy other) :=
  Inv.insert_all _ (Inv.new _)

theorem Inv.operator_assign (s other : HashMap K V) : Inv (operator_assign s other) :=
  Inv.insert_all _ (Inv.clear _)

theorem Inv.operator_subscript [Inhabited V] {s : HashMap K V} (h : Inv s) (k : K) :
    Inv (operator_subscript s k).1 := by
  unfold HashMapModel.operator_subscript
  split
  · exact h
  · simp only
    split <;> exact h.insert _

/-! ## Lookups and reachable states -/

theorem at_of_mem {s : HashMap K V} (h : Inv s) {n : Node K V} (hn : n ∈ s.elements_) :
    «at» s n.first = .ok n.second := by
  unfold «at»
  rw [find_of_mem h hn]
  simp [second_of, deref_of_mem h hn]

theorem at_of_absent {s : HashMap K V} (h : Inv s) {k : K} (hp : ¬ present s k) :
    «at» s k = .error Failure.out_of_range := by
  unfold «at»
  rw [find_of_absent h hp]

theorem mem_iterate {s : HashMap K V} (k : K) (v : V) :
    (k, v) ∈ iterate s ↔ ∃ n ∈ s.elements_, n.first = k ∧ n.second = v := by
  simp [iterate]

theorem present_iff_mem_keys {s : HashMap K V} (k : K) :
    present s k ↔ k ∈ (iterate s).map Prod.fst := by
  simp [iterate, present]

theorem size_eq_length {s : HashMap K V} (h : Inv s) : size s = (iterate s).length := by
  simp [size, iterate, h.num_eq]

theorem operator_subscript_of_mem [Inhabited V] {s : HashMap K V} (h : Inv s) {n : Node K V}
    (hn : n ∈ s.elements_) : operator_subscript s n.first = (s, .ok n.second) := by
  unfold operator_subscript
  rw [find_of_mem h hn]
  simp [second_of, deref_of_mem h hn]

theorem operator_subscript_of_absent [Inhabited V] {s : HashMap K V} (h : Inv s) {k : K}
    (hp : ¬ present s k) :
    operator_subscript s k = (insert s (k, default), .ok default) := by
  have hi : Inv (insert s (k, (default : V))) := h.insert _
  have hmem : ({ addr := (check_capacity s).fresh_, first := k, second := default } : Node K V)
      ∈ (insert s (k, (default : V))).elements_ := by
    rw [insert_of_absent h hp]
    exact List.mem_cons_self _ _
  have hf := find_of_mem hi hmem
  have hd := deref_of_mem hi hmem
  simp only at hf hd
  unfold operator_subscript
  rw [find_of_absent h hp]
  simp only [hf, second_of, hd]

theorem Reachable.inv [Inhabited V] {s : HashMap K V} (h : Reachable s) : Inv s := by
  induction h with
  | new new_hash => exact Inv.new _
  | from_range range new_hash => exact Inv.insert_all _ (Inv.new _)
  | from_initializer_list l new_hash => exact Inv.insert_all _ (Inv.new _)
  | copy _ _ => exact Inv.copy _
  | operator_assign _ _ _ _ => exact Inv.operator_assign _ _
  | insert p _ ih => exact ih.insert p
  | operator_subscript k _ ih => exact ih.operator_subscript k
  | erase k _ ih => exact ih.erase k
  | clear _ _ => exact Inv.clear _

/-! ## Iteration order -/

theorem state_operator_subscript [Inhabited V] {s : HashMap K V} (h : Inv s) (k : K) :
    (operator_subscript s k).1 = if present s k then s else insert s (k, default) := by
  by_cases hp : present s k
  · obtain ⟨n, hn, rfl⟩ := hp
    rw [operator_subscript_of_mem h hn, if_pos ⟨n, hn, rfl⟩]
  · rw [operator_subscript_of_absent h hp, if_neg hp]

theorem Inv.step [Inhabited V] {s : HashMap K V} (h : Inv s) (op : Op K V) :
    Inv (step s op) := by
  cases op with
  | insert p => exact h.insert p
  | erase k => exact h.erase k
  | subscript k => exact h.operator_subscript k

theorem iterate_step [Inhabited V] {s : HashMap K V} (h : Inv s) (op : Op K V) :
    iterate (step s op) = (insertion_order_step (iterate s).reverse op).reverse := by
  cases op with
  | insert p =>
    obtain ⟨k, v⟩ := p
    simp only [step, insertion_order_step, iterate_insert h, List.map_reverse,
      List.mem_reverse]
    split <;> simp
  | erase k =>
    simp only [step, insertion_order_step, iterate_erase h, List.filter_reverse,
      List.reverse_reverse]
  | subscript k =>
    simp only [step, insertion_order_step, state_operator_subscript h, List.map_reverse,
      List.mem_reverse, ← present_iff_mem_keys]
    by_cases hp : present s k
    · simp [hp]
    · simp only [hp, if_false, iterate_insert h, ← present_iff_mem_keys]
      simp

theorem iterate_run [Inhabited V] (ops : List (Op K V)) {s : HashMap K V} (h : Inv s) :
    iterate (run s ops) = (insertion_order (iterate s).reverse ops).reverse := by
  induction ops generalizing s with
  | nil => simp [run, insertion_order]
  | cons op rest ih =>
    simp only [run, insertion_order]
    rw [ih (h.step op), iterate_step h op, List.reverse_reverse]

theorem iterate_insert_all (l : List (K × V)) {s : HashMap K V} (h : Inv s)
    (hl : (l.map Prod.fst).Nodup) (hd : ∀ p ∈ l, ¬ present s p.1) :
    iterate (insert_all s l) = l.reverse ++ iterate s := by
  induction l generalizing s with
  | nil => simp [insert_all]
  | cons p rest ih =>
    obtain ⟨k, v⟩ := p
    simp only [List.map_cons, List.nodup_cons] at hl
    have hk : ¬ present s k := hd (k, v) (List.mem_cons_self _ _)
    have hit : iterate (insert s (k, v)) = (k, v) :: iterate s := by
      rw [iterate_insert h, if_neg (fun e => hk ((present_iff_mem_keys k).2 e))]
    simp only [insert_all]
    rw [ih (h.insert _) hl.2, hit]
    · simp
    · intro q hq hpres
      rw [present_iff_mem_keys, hit, List.map_cons, List.mem_cons] at hpres
      rcases hpres with e | e
      · have hq1 : q.1 ∈ rest.map Prod.fst := List.mem_map_of_mem _ hq
        have e1 : q.1 = k := e
        rw [e1] at hq1
        exact hl.1 hq1
      · exact hd q (List.mem_cons_of_mem _ hq) ((present_iff_mem_keys _).2 e)

theorem keys_iterate_nodup {s : HashMap K V} (h : Inv s) :
    ((iterate s).map Prod.fst).Nodup := by
  have : (iterate s).map Prod.fst = s.elements_.map Node.first := by
    simp [iterate]
  rw [this]
  exact h.keys_nodup

theorem iterate_copy {s : HashMap K V} (h : Inv s) :
    iterate (copy s) = (iterate s).reverse := by
  unfold copy
  rw [iterate_insert_all _ (Inv.new _) (keys_iterate_nodup h)]
  · simp [iterate, HashMapModel.new]
  · intro p _ hp
    obtain ⟨n, hn, -⟩ := hp
    simp [HashMapModel.new] at hn

theorem at_of_mem_iterate {s : HashMap K V} (h : Inv s) {k : K} {v : V}
    (hm : (k, v) ∈ iterate s) : «at» s k = .ok v := by
  obtain ⟨n, hn, rfl, rfl⟩ := (mem_iterate k v).1 hm
  exact at_of_mem h hn

theorem find_ne_none_of_mem_iterate {s : HashMap K V} (h : Inv s) {k : K} {v : V}
    (hm : (k, v) ∈ iterate s) : find s k ≠ none := by
  obtain ⟨n, hn, rfl, rfl⟩ := (mem_iterate k v).1 hm
  rw [find_of_mem h hn]
  exact Option.some_ne_none _

theorem present_of_mem_iterate {s : HashMap K V} {k : K} {v : V}
    (hm : (k, v) ∈ iterate s) : present s k := by
  obtain ⟨n, hn, hk, -⟩ := (mem_iterate k v).1 hm
  exact ⟨n, hn, hk⟩

theorem mem_iterate_insert_of_absent {s : HashMap K V} (h : Inv s) {k : K}
    (hp : ¬ present s k) (v : V) : (k, v) ∈ iterate (insert s (k, v)) := by
  rw [iterate_insert h, if_neg (fun e => hp ((present_iff_mem_keys k).2 e))]
  exact List.mem_cons_self _ _

end invariant

/-! ## Entries that an insertion leaves alone -/

section frame

variable {K V : Type} [DecidableEq K]

theorem elements_insert {s : HashMap K V} (h : Inv s) (k : K) (v : V) :
    (insert s (k, v)).elements_
      = if present s k then s.elements_
        else { addr := s.fresh_, first := k, second := v } :: s.elements_ := by
  obtain ⟨h1, h2, -⟩ := check_capacity_frame h
  by_cases hp : present s k
  · rw [insert_of_present h hp, if_pos hp, h1]
  · rw [insert_of_absent h hp, if_neg hp]
    simp only [h1, h2]

theorem mem_elements_insert {s : HashMap K V} (h : Inv s) (k : K) (v : V) {n : Node K V}
    (hn : n ∈ s.elements_) : n ∈ (insert s (k, v)).elements_ := by
  rw [elements_insert h]
  split
  · exact hn
  · exact List.mem_cons_of_mem _ hn

theorem present_insert_of_ne {s : HashMap K V} (h : Inv s) (k : K) (v : V) {k' : K}
    (hne : k' ≠ k) : present (insert s (k, v)) k' ↔ present s k' := by
  unfold present
  rw [elements_insert h]
  split
  · rfl
  · constructor
    · rintro ⟨n, hn, hk⟩
      rcases List.mem_cons.1 hn with rfl | hn
      · exact absurd hk.symm hne
      · exact ⟨n, hn, hk⟩
    · rintro ⟨n, hn, hk⟩
      exact ⟨n, List.mem_cons_of_mem _ hn, hk⟩

theorem find_insert_of_ne {s : HashMap K V} (h : Inv s) (k : K) (v : V) {k' : K}
    (hne : k' ≠ k) : find (insert s (k, v)) k' = find s k' := by
  by_cases hp : present s k'
  · obtain ⟨n, hn, rfl⟩ := hp
    rw [find_of_mem h hn, find_of_mem (h.insert _) (mem_elements_insert h k v hn)]
  · rw [find_of_absent h hp,
      find_of_absent (h.insert _) (fun e => hp ((present_insert_of_ne h k v hne).1 e))]

theorem at_insert_of_ne {s : HashMap K V} (h : Inv s) (k : K) (v : V) {k' : K}
    (hne : k' ≠ k) : «at» (insert s (k, v)) k' = «at» s k' := by
  by_cases hp : present s k'
  · obtain ⟨n, hn, rfl⟩ := hp
    rw [at_of_mem h hn, at_of_mem (h.insert _) (mem_elements_insert h k v hn)]
  · rw [at_of_absent h hp,
      at_of_absent (h.insert _) (fun e => hp ((present_insert_of_ne h k v hne).1 e))]

theorem find_at_insert_all_of_not_mem (l : List (K × V)) {s : HashMap K V} (h : Inv s)
    {k' : K} (hl : k' ∉ l.map Prod.fst) :
    find (insert_all s l) k' = find s k' ∧ «at» (insert_all s l) k' = «at» s k' := by
  induction l generalizing s with
  | nil => exact ⟨rfl, rfl⟩
  | cons p rest ih =>
    obtain ⟨k, v⟩ := p
    simp only [List.map_cons, List.mem_cons, not_or] at hl
    obtain ⟨h1, h2⟩ := ih (h.insert (k, v)) hl.2
    simp only [insert_all]
    rw [h1, h2]
    exact ⟨find_insert_of_ne h k v hl.1, at_insert_of_ne h k v hl.1⟩

theorem run_clear [Inhabited V] (s : HashMap K V) (ops : List (Op K V)) :
    run (clear s) ops = run (new s.hash_) ops := by
  rw [clear_eq]

theorem present_insert {s : HashMap K V} (h : Inv s) (k : K) (v : V) (k' : K) :
    present (insert s (k, v)) k' ↔ k' = k ∨ present s k' := by
  by_cases hne : k' = k
  · subst hne
    simp only [true_or, iff_true]
    by_cases hp : present s k'
    · obtain ⟨n, hn, hk⟩ := hp
      exact ⟨n, mem_elements_insert h k' v hn, hk⟩
    · exact present_of_mem_iterate (mem_iterate_insert_of_absent h hp v)
  · rw [present_insert_of_ne h k v hne]
    simp [hne]

theorem present_insert_all (l : List (K × V)) {s : HashMap K V} (h : Inv s) (k : K) :
    present (insert_all s l) k ↔ present s k ∨ k ∈ l.map Prod.fst := by
  induction l generalizing s with
  | nil => simp [insert_all]
  | cons p rest ih =>
    obtain ⟨k0, v0⟩ := p
    simp only [insert_all, List.map_cons, List.mem_cons]
    rw [ih (h.insert _), present_insert h]
    tauto

theorem mem_iterate_insert_all (l : List (K × V)) {s : HashMap K V} (h : Inv s) {k : K}
    {v : V} (hm : (k, v) ∈ iterate s) : (k, v) ∈ iterate (insert_all s l) := by
  induction l generalizing s with
  | nil => exact hm
  | cons p rest ih =>
    obtain ⟨k0, v0⟩ := p
    simp only [insert_all]
    apply ih (h.insert _)
    rw [iterate_insert h]
    split
    · exact hm
    · exact List.mem_cons_of_mem _ hm

theorem at_insert_all_of_absent (l : List (K × V)) {s : HashMap K V} (h : Inv s) {k : K}
    (hp : ¬ present s k) :
    «at» (insert_all s l) k
      = match l.find? (fun p => decide (p.1 = k)) with
        | some p => .ok p.2
        | none => .error Failure.out_of_range := by
  induction l generalizing s with
  | nil => simpa [insert_all] using at_of_absent h hp
  | cons p rest ih =>
    obtain ⟨k0, v0⟩ := p
    simp only [insert_all, List.find?_cons]
    by_cases hk : k0 = k
    · subst hk
      simp only [decide_True]
      exact at_of_mem_iterate (Inv.insert_all _ (h.insert _))
        (mem_iterate_insert_all rest (h.insert _) (mem_iterate_insert_of_absent h hp v0))
    · simp only [hk, decide_False]
      exact ih (h.insert _)
        (fun e => hp ((present_insert_of_ne h k0 v0 (fun e2 => hk e2.symm)).1 e))

theorem size_eq_dedup_length {s : HashMap K V} (h : Inv s) (keys : List K)
    (hk : ∀ k, present s k ↔ k ∈ keys) : size s = keys.dedup.length := by
  have hperm : ((iterate s).map Prod.fst).Perm keys.dedup := by
    rw [List.perm_ext_iff_of_nodup (keys_iterate_nodup h) (List.nodup_dedup keys)]
    intro a
    rw [← present_iff_mem_keys, hk, List.mem_dedup]
  rw [size_eq_length h, ← hperm.length_eq, List.length_map]

theorem insert_eq_of_room {s : HashMap K V} (h : Inv s)
    (hroom : s.num_elements_ < s.hash_table_size_) : check_capacity s = s := by
  rw [check_capacity_eq s h.size_pos, if_neg (by omega)]

theorem Inv.size_even {s : HashMap K V} (h : Inv s) : ∃ c, s.hash_table_size_ = 2 * c := by
  obtain ⟨j, hj⟩ := h.size_pow
  exact ⟨10 * 2 ^ j, by rw [hj, initial_size_]; ring⟩

theorem at_eq_of_iterate {a b : HashMap K V} (ha : Inv a) (hb : Inv b) (k : K)
    (hiff : ∀ v, (k, v) ∈ iterate a ↔ (k, v) ∈ iterate b) : «at» a k = «at» b k := by
  by_cases hp : present a k
  · obtain ⟨n, hn, rfl⟩ := hp
    have hm : (n.first, n.second) ∈ iterate a := (mem_iterate _ _).2 ⟨n, hn, rfl, rfl⟩
    rw [at_of_mem_iterate ha hm, at_of_mem_iterate hb ((hiff _).1 hm)]
  · have hpb : ¬ present b k := by
      rintro ⟨n, hn, rfl⟩
      have hm : (n.first, n.second) ∈ iterate b := (mem_iterate _ _).2 ⟨n, hn, rfl, rfl⟩
      exact hp (present_of_mem_iterate ((hiff _).2 hm))
    rw [at_of_absent ha hp, at_of_absent hb hpb]

theorem operator_assign_eq_copy (s other : HashMap K V) :
    operator_assign s other = copy other := rfl

theorem double_size_ne {s : HashMap K V} (hpos : 0 < s.hash_table_size_) :
    double_size s ≠ s := by
  intro e
  have := (double_size_frame s).2.2.2.1
  rw [e] at this
  omega

end frame

/-! ## Consistency of the entry list and the buckets -/

section consistency

variable {K V : Type} [DecidableEq K]

theorem bucketAt_eq_getElem (t : List (List Nat)) (i : Nat) (hi : i < t.length) :
    bucketAt t i = t[i] := by
  unfold bucketAt
  exact List.getD_eq_getElem _ _ hi

theorem bucketAt_of_le (t : List (List Nat)) (i : Nat) (hi : t.length ≤ i) :
    bucketAt t i = [] := by
  unfold bucketAt
  rw [List.getD_eq_getElem?_getD, List.getElem?_eq_none hi]
  rfl

/-- A state is consistent when each bucket holds, without repetition, iterators of entries
that hash to it, and every entry is in the bucket it hashes to. -/
theorem Consistent.of_buckets {s : HashMap K V}
    (hlen : s.hash_table_.length = s.hash_table_size_)
    (hnum : s.num_elements_ = s.elements_.length)
    (hadd : (s.elements_.map Node.addr).Nodup)
    (hsound : ∀ i it, it ∈ bucketAt s.hash_table_ i →
      ∃ n ∈ s.elements_, n.addr = it ∧ s.hash_ n.first % s.hash_table_size_ = i)
    (hcomplete : ∀ n ∈ s.elements_,
      n.addr ∈ bucketAt s.hash_table_ (s.hash_ n.first % s.hash_table_size_))
    (hnodup : ∀ i, (bucketAt s.hash_table_ i).Nodup) : Consistent s := by
  have hsame : ∀ {n m : Node K V}, n ∈ s.elements_ → m ∈ s.elements_ → n.addr = m.addr →
      n = m := fun hn hm e => List.inj_on_of_nodup_map hadd hn hm e
  have hflat : (s.hash_table_.flatten).Nodup := by
    rw [List.nodup_flatten]
    constructor
    · intro l hl
      obtain ⟨i, hi, rfl⟩ := List.mem_iff_getElem.1 hl
      rw [← bucketAt_eq_getElem _ _ hi]
      exact hnodup i
    · rw [List.pairwise_iff_getElem]
      intro i j hi hj hij a ha hb
      rw [← bucketAt_eq_getElem _ _ hi] at ha
      rw [← bucketAt_eq_getElem _ _ hj] at hb
      obtain ⟨n, hn, hna, hni⟩ := hsound _ _ ha
      obtain ⟨m, hm, hma, hmi⟩ := hsound _ _ hb
      have := hsame hn hm (hna.trans hma.symm)
      subst this
      omega
  have hperm : (s.hash_table_.flatten).Perm (s.elements_.map Node.addr) := by
    rw [List.perm_ext_iff_of_nodup hflat hadd]
    intro a
    rw [List.mem_flatten, List.mem_map]
    constructor
    · rintro ⟨l, hl, ha⟩
      obtain ⟨i, hi, rfl⟩ := List.mem_iff_getElem.1 hl
      rw [← bucketAt_eq_getElem _ _ hi] at ha
      obtain ⟨n, hn, hna, -⟩ := hsound _ _ ha
      exact ⟨n, hn, hna⟩
    · rintro ⟨n, hn, rfl⟩
      have hmem := hcomplete n hn
      have hi : s.hash_ n.first % s.hash_table_size_ < s.hash_table_.length := by
        by_contra hge
        rw [bucketAt_of_le _ _ (by omega)] at hmem
        cases hmem
      rw [bucketAt_eq_getElem _ _ hi] at hmem
      exact ⟨_, List.getElem_mem hi, hmem⟩
  constructor
  · exact hnum
  · have := hperm.length_eq
    rw [List.length_flatten, List.length_map] at this
    rw [this, hnum]
  · exact hlen
  · exact hadd
  · intro n hn i
    split
    · rename_i hi
      rw [hi]
      exact List.count_eq_one_of_mem (hnodup _) (hcomplete n hn)
    · rename_i hi
      apply List.count_eq_zero_of_not_mem
      intro hmem
      obtain ⟨m, hm, hma, hmi⟩ := hsound _ _ hmem
      have := hsame hm hn hma
      subst this
      exact hi hmi.symm
  · intro i it hit
    obtain ⟨n, hn, hna, -⟩ := hsound _ _ hit
    exact ⟨n, hn, hna⟩

theorem Inv.consistent {s : HashMap K V} (h : Inv s) : Consistent s :=
  Consistent.of_buckets h.table_len h.num_eq h.addr_nodup h.sound h.complete h.bucket_nodup

theorem Consistent.mem_bucket {s : HashMap K V} (h : Consistent s) {n : Node K V}
    (hn : n ∈ s.elements_) :
    n.addr ∈ bucketAt s.hash_table_ (s.hash_ n.first % s.hash_table_size_) := by
  have := h.once n hn (s.hash_ n.first % s.hash_table_size_)
  rw [if_pos rfl] at this
  exact List.count_pos_iff.1 (by omega)

theorem Consistent.size_pos_of_mem {s : HashMap K V} (h : Consistent s) {n : Node K V}
    (hn : n ∈ s.elements_) : 0 < s.hash_table_size_ := by
  have hmem := h.mem_bucket hn
  by_contra hz
  have hz0 : s.hash_table_size_ = 0 := by omega
  rw [bucketAt_of_le _ _ (by rw [h.table_len, hz0]; exact Nat.zero_le _)] at hmem
  cases hmem

theorem double_size_of_nil {s : HashMap K V} (he : s.elements_ = []) (i : Nat) :
    bucketAt (double_size s).hash_table_ i = [] := by
  have h0 : double_size s = double_size_loop
      { s with
        hash_table_ := resize [] (s.hash_table_size_ * 2)
        hash_table_size_ := s.hash_table_size_ * 2
        num_elements_ := 0 } s.elements_ := rfl
  rw [h0, he]
  simp [double_size_loop, resize_nil, bucketAt_replicate]

theorem Consistent.after_double_size {s : HashMap K V} (h : Consistent s) :
    Consistent (double_size s) := by
  obtain ⟨h1, h2, h3, h4, h5, h6⟩ := double_size_frame s
  apply Consistent.of_buckets
  · rw [h6, h4]
  · rw [h5, h1]
  · rw [h1]
    exact h.nodes_distinct
  · intro i it hit
    cases he : s.elements_ with
    | nil =>
      rw [double_size_of_nil he] at hit
      cases hit
    | cons n rest =>
      have hpos := h.size_pos_of_mem (n := n) (by rw [he]; exact List.mem_cons_self _ _)
      rw [double_size_bucket s hpos i, List.mem_map] at hit
      obtain ⟨m, hm, ha⟩ := hit
      rw [List.mem_filter] at hm
      rw [h1, h3, h4]
      exact ⟨m, hm.1, ha, by simpa using hm.2⟩
  · intro n hn
    rw [h1] at hn
    have hpos := h.size_pos_of_mem hn
    rw [h3, h4, double_size_bucket s hpos, List.mem_map]
    exact ⟨n, by simp [List.mem_filter, hn], rfl⟩
  · intro i
    cases he : s.elements_ with
    | nil =>
      rw [double_size_of_nil he]
      exact List.nodup_nil
    | cons n rest =>
      have hpos := h.size_pos_of_mem (n := n) (by rw [he]; exact List.mem_cons_self _ _)
      rw [double_size_bucket s hpos i]
      exact h.nodes_distinct.sublist (List.Sublist.map _ (List.filter_sublist _))

end consistency

/-! ## The claims -/

section claims

variable {K V : Type} [DecidableEq K] [Inhabited V]

/-- C1, counterexample. With the keys `A, B, C, D = 1, 2, 3, 4`: after inserting `A, B, C`,
erasing `B` and inserting `D`, the iteration lists the keys `D, C, A`, which is neither
`A, C, D` nor the insertion order of the live entries. -/
theorem C1_iteration_not_oldest_first :
    (iterate (run (new (fun k : Nat => k))
        [Op.insert (1, 10), Op.insert (2, 20), Op.insert (3, 30), Op.erase 2,
          Op.insert (4, 40)])).map Prod.fst = [4, 3, 1]
      ∧ iterate (run (new (fun k : Nat => k))
          [Op.insert (1, 10), Op.insert (2, 20), Op.insert (3, 30), Op.erase 2,
            Op.insert (4, 40)])
        ≠ insertion_order []
          [Op.insert (1, 10), Op.insert (2, 20), Op.insert (3, 30), Op.erase 2,
            Op.insert (4, 40)] := by
  constructor <;> decide

/-- C1, amended. For every hash function and every sequence of `insert`, `erase` and
`operator[]` calls on the empty map, iterating lists the live entries in the reverse of the
order in which they were (last) inserted, newest first; in particular, for pairwise distinct
keys `A, B, C, D`, inserting `A, B, C`, erasing `B` and inserting `D` yields the iteration
order `D, C, A`. -/
theorem C1_iteration_newest_first (new_hash : K → Nat) (ops : List (Op K V))
    (A B C D : K) (va vb vc vd : V)
    (hAB : A ≠ B) (hAC : A ≠ C) (hAD : A ≠ D) (hBC : B ≠ C) (_hBD : B ≠ D) (hCD : C ≠ D) :
    iterate (run (new new_hash) ops) = (insertion_order [] ops).reverse
      ∧ iterate (run (new new_hash)
          [Op.insert (A, va), Op.insert (B, vb), Op.insert (C, vc), Op.erase B,
            Op.insert (D, vd)])
        = [(D, vd), (C, vc), (A, va)] := by
  have hgen : ∀ l : List (Op K V),
      iterate (run (new new_hash) l) = (insertion_order [] l).reverse := by
    intro l
    rw [iterate_run l (Inv.new new_hash)]
    simp [iterate, HashMapModel.new]
  refine ⟨hgen ops, ?_⟩
  rw [hgen]
  simp [insertion_order, insertion_order_step, hAB, hAC, hAD, hBC, hCD,
    hAB.symm, hAC.symm, hAD.symm, hBC.symm, hCD.symm, List.filter_cons]

/-- C1, amended: an instance with strings as keys. -/
theorem C1_iteration_newest_first_witness :
    iterate (run (new (fun k : String => k.length))
        [Op.insert ("A", 1), Op.erase "A", Op.subscript "B", Op.insert ("A", 2)])
      = (insertion_order []
          [Op.insert ("A", 1), Op.erase "A", Op.subscript "B", Op.insert ("A", 2)]).reverse
      ∧ iterate (run (new (fun k : String => k.length))
          [Op.insert ("A", 1), Op.insert ("B", 2), Op.insert ("C", 3), Op.erase "B",
            Op.insert ("D", 4)])
        = [("D", 4), ("C", 3), ("A", 1)] :=
  C1_iteration_newest_first (fun k : String => k.length)
    [Op.insert ("A", 1), Op.erase "A", Op.subscript "B", Op.insert ("A", 2)]
    "A" "B" "C" "D" 1 2 3 4 (by decide) (by decide) (by decide) (by decide) (by decide)
    (by decide)

/-- C2, counterexample. The map built by inserting the keys 1 and 2 iterates `2, 1`; its copy
iterates `1, 2`. -/
theorem C2_copy_changes_order :
    Reachable (insert (insert (new (fun k : Nat => k)) (1, 10)) (2, 20) : HashMap Nat Nat)
      ∧ iterate (insert (insert (new (fun k : Nat => k)) (1, 10)) (2, 20)) = [(2, 20), (1, 10)]
      ∧ iterate (copy (insert (insert (new (fun k : Nat => k)) (1, 10)) (2, 20)))
        ≠ iterate (insert (insert (new (fun k : Nat => k)) (1, 10)) (2, 20)) :=
  ⟨Reachable.insert _ (Reachable.insert _ (Reachable.new _)), by decide, by decide⟩

/-- C2, amended. For every reachable map `m`, the copy-constructed map iterates the pairs of
`m` in the reverse of the order in which `m` iterates them; it iterates the same sequence as
`m` exactly when that sequence reads the same in both directions. -/
theorem C2_copy_iterates_reverse (m : HashMap K V) (h : Reachable m) :
    iterate (copy m) = (iterate m).reverse
      ∧ (iterate (copy m) = iterate m ↔ (iterate m).reverse = iterate m) := by
  have := iterate_copy h.inv
  exact ⟨this, by rw [this]⟩

/-- C2, amended: an instance. -/
theorem C2_copy_iterates_reverse_witness :
    Reachable small_map
      ∧ iterate (copy small_map) = (iterate small_map).reverse
      ∧ (iterate (copy small_map) = iterate small_map
          ↔ (iterate small_map).reverse = iterate small_map) :=
  ⟨Reachable.from_range _ _, C2_copy_iterates_reverse small_map (Reachable.from_range _ _)⟩

set_option maxRecDepth 100000 in
/-- C3, the code at the failing input. After twenty insertions of distinct keys into a fresh
map the state is reachable, `num_elements_` is 20 and `hash_table_size_` is still 20: the
load factor is 1, not below 1. -/
theorem C3_load_factor_reaches_one :
    Reachable full_map
      ∧ full_map.num_elements_ = 20
      ∧ full_map.hash_table_size_ = 20
      ∧ ¬ full_map.num_elements_ < full_map.hash_table_size_ :=
  ⟨Reachable.from_range _ _, by decide, by decide, by decide⟩

/-- C4. In every reachable state no two entries of the entry list `elements_` have equal
keys, for every hash function. -/
theorem C4_keys_unique (s : HashMap K V) (h : Reachable s) :
    s.elements_.Pairwise (fun n m => n.first ≠ m.first) := by
  have := h.inv.keys_nodup
  rwa [List.Nodup, List.pairwise_map] at this

/-- C4: an instance, a map built from a range in which a key is repeated. -/
theorem C4_keys_unique_witness :
    Reachable small_map ∧ small_map.elements_.Pairwise (fun n m => n.first ≠ m.first) :=
  ⟨Reachable.from_range _ _, C4_keys_unique small_map (Reachable.from_range _ _)⟩

/-- C5. For every reachable map and key `k`: if an entry of the entry list has key `k`, then
`find(k)` returns the iterator of that entry; an iterator that `find(k)` returns is the
iterator of an entry of the entry list with key `k`; and `find(k)` returns `end()` exactly
when no entry of the entry list has key `k`. -/
theorem C5_find_correct (s : HashMap K V) (h : Reachable s) (k : K) :
    (∀ n ∈ s.elements_, n.first = k → find s k = some n.addr)
      ∧ (∀ it, find s k = some it → ∃ n ∈ s.elements_, n.addr = it ∧ n.first = k)
      ∧ (find s k = none ↔ ∀ n ∈ s.elements_, n.first ≠ k) := by
  refine ⟨?_, ?_, ?_⟩
  · rintro n hn rfl
    exact find_of_mem h.inv hn
  · intro it hf
    exact (find_eq_some_iff h.inv k it).1 hf
  · rw [find_eq_none_iff h.inv]
    simp [present]

/-- C5: an instance, on a map whose table has grown. -/
theorem C5_find_correct_witness :
    Reachable grown_map
      ∧ (∀ n ∈ grown_map.elements_, n.first = 20 → find grown_map 20 = some n.addr)
      ∧ (∀ it, find grown_map 20 = some it →
          ∃ n ∈ grown_map.elements_, n.addr = it ∧ n.first = 20)
      ∧ (find grown_map 20 = none ↔ ∀ n ∈ grown_map.elements_, n.first ≠ 20) :=
  ⟨Reachable.from_range _ _, C5_find_correct grown_map (Reachable.from_range _ _) 20⟩

/-- C6. For every reachable map `m`, key `k` not present in `m` and value `v`: after
`insert((k, v))` the size is `size(m) + 1`, `find(k)` does not return `end()`, the entry it
points to holds `(k, v)`, and `at(k)` returns `v`. -/
theorem C6_insert_absent (m : HashMap K V) (h : Reachable m) (k : K) (v : V)
    (hk : ¬ present m k) :
    size (insert m (k, v)) = size m + 1
      ∧ find (insert m (k, v)) k ≠ none
      ∧ (∃ it n, find (insert m (k, v)) k = some it ∧ deref (insert m (k, v)) it = some n
          ∧ n.first = k ∧ n.second = v)
      ∧ «at» (insert m (k, v)) k = .ok v := by
  have hi : Inv (insert m (k, v)) := h.inv.insert _
  have hmem := mem_iterate_insert_of_absent h.inv hk v
  refine ⟨?_, find_ne_none_of_mem_iterate hi hmem, ?_, at_of_mem_iterate hi hmem⟩
  · rw [size_insert h.inv, if_neg hk]
  · obtain ⟨n, hn, hf, hs⟩ := (mem_iterate k v).1 hmem
    have hfind := find_of_mem hi hn
    rw [hf] at hfind
    exact ⟨n.addr, n, hfind, deref_of_mem hi hn, hf, hs⟩

set_option maxRecDepth 100000 in
/-- C6: an instance, the insertion of a twenty-first key, which makes the table grow. -/
theorem C6_insert_absent_witness :
    Reachable full_map ∧ ¬ present full_map 20
      ∧ size (insert full_map (20, 7)) = size full_map + 1
      ∧ find (insert full_map (20, 7)) 20 ≠ none
      ∧ (∃ it n, find (insert full_map (20, 7)) 20 = some it
          ∧ deref (insert full_map (20, 7)) it = some n ∧ n.first = 20 ∧ n.second = 7)
      ∧ «at» (insert full_map (20, 7)) 20 = .ok 7 :=
  ⟨Reachable.from_range _ _, by decide,
    C6_insert_absent full_map (Reachable.from_range _ _) 20 7 (by decide)⟩

/-- C7. For every reachable map `m`, key `k` present in `m` with value `v0`, and every value
`v`: after `insert((k, v))` the size is unchanged, the iterated sequence of pairs is unchanged
and `at(k)` still returns `v0`. -/
theorem C7_insert_present (m : HashMap K V) (h : Reachable m) (k : K) (v0 v : V)
    (hk : (k, v0) ∈ iterate m) :
    size (insert m (k, v)) = size m
      ∧ iterate (insert m (k, v)) = iterate m
      ∧ «at» (insert m (k, v)) k = .ok v0 := by
  have hp : present m k := present_of_mem_iterate hk
  have hit : iterate (insert m (k, v)) = iterate m := by
    rw [iterate_insert h.inv, if_pos ((present_iff_mem_keys k).1 hp)]
  refine ⟨?_, hit, ?_⟩
  · rw [size_insert h.inv, if_pos hp]
  · apply at_of_mem_iterate (h.inv.insert _)
    rw [hit]
    exact hk

/-- C7: an instance. -/
theorem C7_insert_present_witness :
    Reachable small_map ∧ (2, 20) ∈ iterate small_map
      ∧ size (insert small_map (2, 99)) = size small_map
      ∧ iterate (insert small_map (2, 99)) = iterate small_map
      ∧ «at» (insert small_map (2, 99)) 2 = .ok 20 :=
  ⟨Reachable.from_range _ _, by decide,
    C7_insert_present small_map (Reachable.from_range _ _) 2 20 99 (by decide)⟩

/-- C8. For every reachable map `m` and key `k`: after `erase(k)` the iterated sequence is
the sequence of `m` without the entry of key `k`, the others in the same order; `size()` is
the length of that sequence, one less than before when `k` was present; `find(k)` returns
`end()`; and when `k` is absent from `m`, `erase(k)` leaves the whole state unchanged, so
that a second `erase(k)` does too and `size()` is unchanged both times. -/
theorem C8_erase (m : HashMap K V) (h : Reachable m) (k : K) :
    iterate (erase m k) = (iterate m).filter (fun p => !decide (p.1 = k))
      ∧ size (erase m k) = ((iterate m).filter (fun p => !decide (p.1 = k))).length
      ∧ (present m k → size (erase m k) + 1 = size m)
      ∧ find (erase m k) k = none
      ∧ (¬ present m k → erase m k = m ∧ erase (erase m k) k = m
          ∧ size (erase m k) = size m ∧ size (erase (erase m k) k) = size m) := by
  have hi : Inv (erase m k) := h.inv.erase k
  have hit := iterate_erase h.inv k
  have hnp : ¬ present (erase m k) k := by
    rw [present_iff_mem_keys, hit]
    simp
  refine ⟨hit, ?_, ?_, find_of_absent hi hnp, ?_⟩
  · rw [size_eq_length hi, hit]
  · rintro ⟨n, hn, rfl⟩
    rw [erase_of_mem h.inv hn]
    have := length_filter_addr h.inv.addr_nodup hn
    have := h.inv.num_eq
    simp only [size]
    omega
  · intro hp
    have e := erase_of_absent h.inv hp
    rw [e, e]
    exact ⟨rfl, rfl, rfl, rfl⟩

/-- C8: an instance, erasing a present key of a map whose table has grown. -/
theorem C8_erase_witness :
    Reachable grown_map
      ∧ iterate (erase grown_map 5) = (iterate grown_map).filter (fun p => !decide (p.1 = 5))
      ∧ size (erase grown_map 5)
        = ((iterate grown_map).filter (fun p => !decide (p.1 = 5))).length
      ∧ (present grown_map 5 → size (erase grown_map 5) + 1 = size grown_map)
      ∧ find (erase grown_map 5) 5 = none
      ∧ (¬ present grown_map 5 → erase grown_map 5 = grown_map
          ∧ erase (erase grown_map 5) 5 = grown_map
          ∧ size (erase grown_map 5) = size grown_map
          ∧ size (erase (erase grown_map 5) 5) = size grown_map) :=
  ⟨Reachable.from_range _ _, C8_erase grown_map (Reachable.from_range _ _) 5⟩

/-- C9. For every reachable map `m` and key `k`: `at(k)` raises the out-of-range error if and
only if `k` is not present in `m`; when `k` is present it returns the value stored with `k`;
on an empty map it always raises. The method is `const`: it yields a result and no new
state, so the map is the same before and after the call. -/
theorem C9_at (m : HashMap K V) (h : Reachable m) (k : K) (new_hash : K → Nat) :
    («at» m k = .error Failure.out_of_range ↔ ¬ present m k)
      ∧ (∀ v, (k, v) ∈ iterate m → «at» m k = .ok v)
      ∧ (present m k → ∃ v, (k, v) ∈ iterate m ∧ «at» m k = .ok v)
      ∧ «at» (new new_hash : HashMap K V) k = .error Failure.out_of_range := by
  have hpres : present m k → ∃ v, (k, v) ∈ iterate m ∧ «at» m k = .ok v := by
    rintro ⟨n, hn, rfl⟩
    exact ⟨n.second, (mem_iterate _ _).2 ⟨n, hn, rfl, rfl⟩, at_of_mem h.inv hn⟩
  refine ⟨⟨?_, at_of_absent h.inv⟩, fun v hv => at_of_mem_iterate h.inv hv, hpres, ?_⟩
  · intro he hp
    obtain ⟨v, -, hv⟩ := hpres hp
    rw [hv] at he
    cases he
  · apply at_of_absent (Inv.new new_hash)
    rintro ⟨n, hn, -⟩
    simp [HashMapModel.new] at hn

/-- C9: an instance. -/
theorem C9_at_witness :
    Reachable small_map
      ∧ («at» small_map 1 = .error Failure.out_of_range ↔ ¬ present small_map 1)
      ∧ (∀ v, (1, v) ∈ iterate small_map → «at» small_map 1 = .ok v)
      ∧ (present small_map 1 → ∃ v, (1, v) ∈ iterate small_map ∧ «at» small_map 1 = .ok v)
      ∧ «at» (new (fun k => k + 3) : HashMap Nat Nat) 1 = .error Failure.out_of_range :=
  ⟨Reachable.from_range _ _, C9_at small_map (Reachable.from_range _ _) 1 (fun k => k + 3)⟩

/-- C10. For every reachable map `m` and key `k`: if `k` is absent, `m[k]` returns the
default value of the value type, afterwards `size()` is `size(m) + 1`, `find(k)` does not
return `end()` and the entry of `k` holds the default value; if `k` is present, `m[k]`
returns the stored value and leaves the state unchanged. On an empty map from strings to
integers, `m["x"]` returns 0, the size becomes 1 and `find("x")` succeeds. -/
theorem C10_operator_subscript (m : HashMap K V) (h : Reachable m) (k : K)
    (string_hash : String → Nat) :
    (¬ present m k →
        (operator_subscript m k).2 = .ok default
          ∧ size (operator_subscript m k).1 = size m + 1
          ∧ find (operator_subscript m k).1 k ≠ none
          ∧ «at» (operator_subscript m k).1 k = .ok default)
      ∧ (∀ v0, (k, v0) ∈ iterate m → operator_subscript m k = (m, .ok v0))
      ∧ ((operator_subscript (new string_hash : HashMap String Int) "x").2 = .ok 0
          ∧ size (operator_subscript (new string_hash : HashMap String Int) "x").1 = 1
          ∧ find (operator_subscript (new string_hash : HashMap String Int) "x").1 "x"
            ≠ none) := by
  have habs : ∀ {K' V' : Type} [DecidableEq K'] [Inhabited V'] (s : HashMap K' V') (k' : K'),
      Inv s → ¬ present s k' →
        (operator_subscript s k').2 = .ok default
          ∧ size (operator_subscript s k').1 = size s + 1
          ∧ find (operator_subscript s k').1 k' ≠ none
          ∧ «at» (operator_subscript s k').1 k' = .ok default := by
    intro K' V' _ _ s k' hs hp
    rw [operator_subscript_of_absent hs hp]
    have hmem := mem_iterate_insert_of_absent hs hp (default : V')
    refine ⟨rfl, ?_, find_ne_none_of_mem_iterate (hs.insert _) hmem,
      at_of_mem_iterate (hs.insert _) hmem⟩
    simp only
    rw [size_insert hs, if_neg hp]
  refine ⟨habs m k h.inv, ?_, ?_⟩
  · intro v0 hv
    obtain ⟨n, hn, rfl, rfl⟩ := (mem_iterate k v0).1 hv
    exact operator_subscript_of_mem h.inv hn
  · have hp : ¬ present (new string_hash : HashMap String Int) "x" := by
      rintro ⟨n, hn, -⟩
      simp [HashMapModel.new] at hn
    obtain ⟨h1, h2, h3, -⟩ := habs _ "x" (Inv.new string_hash) hp
    exact ⟨h1, h2, h3⟩

/-- C10: an instance, `m[7]` on a map without the key 7. -/
theorem C10_operator_subscript_witness :
    Reachable small_map
      ∧ (¬ present small_map 7 →
          (operator_subscript small_map 7).2 = .ok default
            ∧ size (operator_subscript small_map 7).1 = size small_map + 1
            ∧ find (operator_subscript small_map 7).1 7 ≠ none
            ∧ «at» (operator_subscript small_map 7).1 7 = .ok default)
      ∧ (∀ v0, (7, v0) ∈ iterate small_map → operator_subscript small_map 7 = (small_map, .ok v0))
      ∧ ((operator_subscript (new String.length : HashMap String Int) "x").2 = .ok 0
          ∧ size (operator_subscript (new String.length : HashMap String Int) "x").1 = 1
          ∧ find (operator_subscript (new String.length : HashMap String Int) "x").1 "x"
            ≠ none) :=
  ⟨Reachable.from_range _ _,
    C10_operator_subscript small_map (Reachable.from_range _ _) 7 String.length⟩

/-- C11. For every reachable map `m`, keys `k' ≠ k` and value `v`: `find(k')` returns the same
iterator and `at(k')` the same result (out of range, or the same value) after
`insert((k, v))` as before; the same holds after a whole sequence of insertions of keys
other than `k'`, however many times `double_size` runs in it. -/
theorem C11_other_entries_survive (m : HashMap K V) (h : Reachable m) (k k' : K) (v : V)
    (l : List (K × V)) (hne : k' ≠ k) (hl : k' ∉ l.map Prod.fst) :
    find (insert m (k, v)) k' = find m k'
      ∧ «at» (insert m (k, v)) k' = «at» m k'
      ∧ find (insert_all m l) k' = find m k'
      ∧ «at» (insert_all m l) k' = «at» m k' :=
  ⟨find_insert_of_ne h.inv k v hne, at_insert_of_ne h.inv k v hne,
    find_at_insert_all_of_not_mem l h.inv hl⟩

set_option maxRecDepth 100000 in
/-- C11: an instance. The table of twenty keys is full; inserting the key 20, and inserting
the twenty-five keys `20 .. 44`, make it grow once and twice. -/
theorem C11_other_entries_survive_witness :
    Reachable full_map ∧ 3 ≠ 20
      ∧ 3 ∉ ((List.range 25).map (fun i => (i + 20, 1))).map Prod.fst
      ∧ (insert_all full_map ((List.range 25).map (fun i => (i + 20, 1)))).hash_table_size_ = 80
      ∧ find (insert full_map (20, 1)) 3 = find full_map 3
      ∧ «at» (insert full_map (20, 1)) 3 = «at» full_map 3
      ∧ find (insert_all full_map ((List.range 25).map (fun i => (i + 20, 1)))) 3
        = find full_map 3
      ∧ «at» (insert_all full_map ((List.range 25).map (fun i => (i + 20, 1)))) 3
        = «at» full_map 3 :=
  ⟨Reachable.from_range _ _, by decide, by decide, by decide,
    C11_other_entries_survive full_map (Reachable.from_range _ _) 20 3 1
      ((List.range 25).map (fun i => (i + 20, 1))) (by decide) (by decide)⟩

/-- C12. For every map `m`, `clear()` yields a state with no entries, `num_elements_ = 0`,
`hash_table_size_ = 20` and twenty empty buckets; it is the state of a newly constructed map
with the same hash function, so every sequence of calls gives the same state after `clear()`
as on a fresh map. -/
theorem C12_clear_is_fresh (m : HashMap K V) (ops : List (Op K V)) :
    (clear m).elements_ = []
      ∧ (clear m).num_elements_ = 0
      ∧ (clear m).hash_table_size_ = 20
      ∧ (clear m).hash_table_ = List.replicate 20 []
      ∧ (clear m).hash_ = m.hash_
      ∧ clear m = new m.hash_
      ∧ run (clear m) ops = run (new m.hash_) ops :=
  ⟨rfl, rfl, rfl, by simp [clear, resize_nil, initial_size_], rfl, clear_eq m, run_clear m ops⟩

/-- C13. For every finite sequence of pairs and every hash function, the map built by the
range constructor, and likewise by the initializer-list constructor, contains exactly the
keys of the sequence, its `size()` is the number of distinct keys, and `at(k)` is the value
of the first pair of the sequence whose key is `k` (out of range when there is none). -/
theorem C13_bulk_first_wins (range : List (K × V)) (new_hash : K → Nat) (k : K) :
    (present (from_range range new_hash) k ↔ k ∈ range.map Prod.fst)
      ∧ size (from_range range new_hash) = (range.map Prod.fst).dedup.length
      ∧ «at» (from_range range new_hash) k
        = (match range.find? (fun p => decide (p.1 = k)) with
          | some p => .ok p.2
          | none => .error Failure.out_of_range)
      ∧ (present (from_initializer_list range new_hash) k ↔ k ∈ range.map Prod.fst)
      ∧ size (from_initializer_list range new_hash) = (range.map Prod.fst).dedup.length
      ∧ «at» (from_initializer_list range new_hash) k
        = (match range.find? (fun p => decide (p.1 = k)) with
          | some p => .ok p.2
          | none => .error Failure.out_of_range) := by
  have hnew : ∀ a, ¬ present (new new_hash : HashMap K V) a := by
    rintro a ⟨n, hn, -⟩
    simp [HashMapModel.new] at hn
  have hpres : ∀ a, present (insert_all (new new_hash : HashMap K V) range) a
      ↔ a ∈ range.map Prod.fst := by
    intro a
    rw [present_insert_all range (Inv.new new_hash)]
    simp [hnew a]
  have hsize := size_eq_dedup_length (Inv.insert_all range (Inv.new new_hash))
    (range.map Prod.fst) hpres
  have hat := at_insert_all_of_absent range (Inv.new new_hash) (hnew k)
  exact ⟨hpres k, hsize, hat, hpres k, hsize, hat⟩

/-- C14, counterexample. Immediately after the tenth distinct key is inserted into a fresh
map, `num_elements_` is 10 and `hash_table_size_` is 20: the load factor is 0.5, not below
0.5. -/
theorem C14_load_factor_reaches_half :
    Reachable nine_map
      ∧ (insert nine_map (9, 0)).num_elements_ = 10
      ∧ (insert nine_map (9, 0)).hash_table_size_ = 20
      ∧ ¬ 2 * (insert nine_map (9, 0)).num_elements_
          < (insert nine_map (9, 0)).hash_table_size_ :=
  ⟨Reachable.from_range _ _, by decide, by decide, by decide⟩

/-- C14, amended. For every reachable map `m` whose load factor is below 0.5
(`2 * num_elements_ < hash_table_size_`) and every pair `p`, in the state immediately after
`insert(p)` completes the load factor is at most 0.5
(`2 * num_elements_ ≤ hash_table_size_`), and the table size is the one before the call. -/
theorem C14_load_factor_at_most_half (m : HashMap K V) (h : Reachable m) (p : K × V)
    (hload : 2 * m.num_elements_ < m.hash_table_size_) :
    2 * (insert m p).num_elements_ ≤ (insert m p).hash_table_size_
      ∧ (insert m p).hash_table_size_ = m.hash_table_size_ := by
  obtain ⟨k, v⟩ := p
  have hcc : check_capacity m = m := insert_eq_of_room h.inv (by omega)
  obtain ⟨c, hc⟩ := h.inv.size_even
  by_cases hp : present m k
  · rw [insert_of_present h.inv hp, hcc]
    exact ⟨by omega, rfl⟩
  · rw [insert_of_absent h.inv hp, hcc]
    simp only
    exact ⟨by omega, trivial⟩

/-- C14, amended: an instance, the insertion of the tenth key. -/
theorem C14_load_factor_at_most_half_witness :
    Reachable nine_map ∧ 2 * nine_map.num_elements_ < nine_map.hash_table_size_
      ∧ 2 * (insert nine_map (9, 0)).num_elements_ ≤ (insert nine_map (9, 0)).hash_table_size_
      ∧ (insert nine_map (9, 0)).hash_table_size_ = nine_map.hash_table_size_ :=
  ⟨Reachable.from_range _ _, by decide,
    C14_load_factor_at_most_half nine_map (Reachable.from_range _ _) (9, 0) (by decide)⟩

/-- C15, the code at the failing input. A fresh map holds the ten keys `0 .. 9`, so its load
factor is 0.5; the key 10 is absent. After `insert((10, 0))` the table size is still 20, not
40: `double_size` did not run. -/
theorem C15_eleventh_insert_keeps_table :
    Reachable ten_map
      ∧ ¬ present ten_map 10
      ∧ 2 * ten_map.num_elements_ ≥ ten_map.hash_table_size_
      ∧ ten_map.hash_table_size_ = 20
      ∧ (insert ten_map (10, 0)).hash_table_size_ = 20
      ∧ (insert ten_map (10, 0)).num_elements_ = 11 :=
  ⟨Reachable.from_range _ _, by decide, by decide, by decide, by decide, by decide⟩

/-- C16. In every reachable state `num_elements_` is the length of the entry list and the sum
of the lengths of the buckets, `hash_table_` has exactly `hash_table_size_` buckets, every
entry of the entry list is referenced exactly once, in the bucket of index
`hash_(key) % hash_table_size_` and in no other, and every iterator held by a bucket points
to an entry of the list. -/
theorem C16_index_log_consistent (s : HashMap K V) (h : Reachable s) :
    s.num_elements_ = s.elements_.length
      ∧ s.num_elements_ = (s.hash_table_.map List.length).sum
      ∧ s.hash_table_.length = s.hash_table_size_
      ∧ (∀ n ∈ s.elements_, ∀ i,
          (bucketAt s.hash_table_ i).count n.addr
            = if i = s.hash_ n.first % s.hash_table_size_ then 1 else 0)
      ∧ (∀ i it, it ∈ bucketAt s.hash_table_ i → ∃ n ∈ s.elements_, n.addr = it)
      ∧ Consistent s := by
  have hc := h.inv.consistent
  exact ⟨hc.num_eq_length, hc.num_eq_sum, hc.table_len, hc.once, hc.no_stale, hc⟩

/-- C16: an instance, a map whose table has grown and from which a key was erased. -/
theorem C16_index_log_consistent_witness :
    Reachable (erase grown_map 5)
      ∧ (erase grown_map 5).num_elements_ = (erase grown_map 5).elements_.length
      ∧ (erase grown_map 5).num_elements_
        = ((erase grown_map 5).hash_table_.map List.length).sum
      ∧ (erase grown_map 5).hash_table_.length = (erase grown_map 5).hash_table_size_
      ∧ (∀ n ∈ (erase grown_map 5).elements_, ∀ i,
          (bucketAt (erase grown_map 5).hash_table_ i).count n.addr
            = if i = (erase grown_map 5).hash_ n.first % (erase grown_map 5).hash_table_size_
              then 1 else 0)
      ∧ (∀ i it, it ∈ bucketAt (erase grown_map 5).hash_table_ i →
          ∃ n ∈ (erase grown_map 5).elements_, n.addr = it)
      ∧ Consistent (erase grown_map 5) :=
  ⟨Reachable.erase 5 (Reachable.from_range _ _),
    C16_index_log_consistent (erase grown_map 5) (Reachable.erase 5 (Reachable.from_range _ _))⟩

/-- C17. For every state that satisfies the index/log consistency invariant, `double_size`
leaves the entry list (keys, values and order), the hash function and `num_elements_`
unchanged, sets `hash_table_size_` to exactly twice its previous value, and produces that
many buckets, in which every entry is referenced exactly once, in the bucket of index
`hash_(key)` modulo the new size; the new state is consistent again. -/
theorem C17_double_size_rebuilds_index (s : HashMap K V) (h : Consistent s) :
    (double_size s).elements_ = s.elements_
      ∧ iterate (double_size s) = iterate s
      ∧ (double_size s).hash_ = s.hash_
      ∧ (double_size s).num_elements_ = s.num_elements_
      ∧ (double_size s).hash_table_size_ = 2 * s.hash_table_size_
      ∧ (double_size s).hash_table_.length = 2 * s.hash_table_size_
      ∧ (∀ n ∈ s.elements_, ∀ i,
          (bucketAt (double_size s).hash_table_ i).count n.addr
            = if i = s.hash_ n.first % (2 * s.hash_table_size_) then 1 else 0)
      ∧ Consistent (double_size s) := by
  obtain ⟨h1, -, h3, h4, h5, h6⟩ := double_size_frame s
  have hc := h.after_double_size
  refine ⟨h1, by simp [iterate, h1], h3, ?_, by omega, by omega, ?_, hc⟩
  · rw [h5, h.num_eq_length]
  · intro n hn i
    have := hc.once n (by rw [h1]; exact hn) i
    rw [h3, h4, Nat.mul_comm] at this
    exact this

set_option maxRecDepth 100000 in
/-- C17: an instance, the full table of twenty keys. -/
theorem C17_double_size_rebuilds_index_witness :
    Consistent full_map
      ∧ (double_size full_map).hash_table_size_ = 40
      ∧ (double_size full_map).elements_ = full_map.elements_
      ∧ iterate (double_size full_map) = iterate full_map
      ∧ (double_size full_map).hash_ = full_map.hash_
      ∧ (double_size full_map).num_elements_ = full_map.num_elements_
      ∧ (double_size full_map).hash_table_size_ = 2 * full_map.hash_table_size_
      ∧ (double_size full_map).hash_table_.length = 2 * full_map.hash_table_size_
      ∧ (∀ n ∈ full_map.elements_, ∀ i,
          (bucketAt (double_size full_map).hash_table_ i).count n.addr
            = if i = full_map.hash_ n.first % (2 * full_map.hash_table_size_) then 1 else 0)
      ∧ Consistent (double_size full_map) :=
  ⟨(Reachable.from_range _ _).inv.consistent, by decide,
    C17_double_size_rebuilds_index full_map (Reachable.from_range _ _).inv.consistent⟩

set_option maxRecDepth 100000 in
/-- C18, counterexample. The table of twenty keys is full; inserting the key 0, which is
present, runs `double_size`: the table size becomes 40 and the state changes. -/
theorem C18_duplicate_insert_grows :
    Reachable full_map
      ∧ present full_map 0
      ∧ full_map.hash_table_size_ = 20
      ∧ (insert full_map (0, 5)).hash_table_size_ = 40
      ∧ (insert full_map (0, 5)).hash_table_ ≠ full_map.hash_table_
      ∧ insert full_map (0, 5) ≠ full_map := by
  refine ⟨Reachable.from_range _ _, by decide, by decide, by decide, by decide, ?_⟩
  intro e
  have h40 : (insert full_map (0, 5)).hash_table_size_ = 40 := by decide
  rw [e] at h40
  revert h40
  decide

/-- C18, amended. For every reachable map `m` and key `k` already present in `m`,
`insert((k, v))` does what `check_capacity` alone does: the growth check runs on every call,
before the lookup, so a duplicate can trigger `double_size`. The entry list, the hash
function and `num_elements_` are unchanged in every case; when the load factor is below 0.5
the whole state, `hash_table_size_` and the bucket lists included, is unchanged. -/
theorem C18_duplicate_insert (m : HashMap K V) (h : Reachable m) (k : K) (v : V)
    (hk : present m k) :
    insert m (k, v) = check_capacity m
      ∧ (insert m (k, v)).elements_ = m.elements_
      ∧ (insert m (k, v)).hash_ = m.hash_
      ∧ (insert m (k, v)).num_elements_ = m.num_elements_
      ∧ (2 * m.num_elements_ < m.hash_table_size_ → insert m (k, v) = m) := by
  have he := insert_of_present h.inv hk v
  obtain ⟨h1, -, h3, h4, -⟩ := check_capacity_frame h.inv
  rw [he]
  exact ⟨rfl, h1, h3, h4, fun hl => insert_eq_of_room h.inv (by omega)⟩

set_option maxRecDepth 100000 in
/-- C18, amended: an instance, a duplicate inserted into the full table. -/
theorem C18_duplicate_insert_witness :
    Reachable full_map ∧ present full_map 0
      ∧ insert full_map (0, 5) = check_capacity full_map
      ∧ (insert full_map (0, 5)).elements_ = full_map.elements_
      ∧ (insert full_map (0, 5)).hash_ = full_map.hash_
      ∧ (insert full_map (0, 5)).num_elements_ = full_map.num_elements_
      ∧ (2 * full_map.num_elements_ < full_map.hash_table_size_ →
          insert full_map (0, 5) = full_map) :=
  ⟨Reachable.from_range _ _, by decide,
    C18_duplicate_insert full_map (Reachable.from_range _ _) 0 5 (by decide)⟩

/-- C19. In every reachable state `hash_table_size_` is at least 20 and is `20 * 2^j` for
some `j`, the index `hash_(k) % hash_table_size_` of every key is the index of an existing
bucket, and `num_elements_ ≤ hash_table_size_`; `check_capacity` runs `double_size`, which
changes the state, exactly when `num_elements_ ≥ hash_table_size_`, and otherwise leaves the
state as it is. -/
theorem C19_capacity_bound (s : HashMap K V) (h : Reachable s) :
    20 ≤ s.hash_table_size_
      ∧ (∀ k, s.hash_ k % s.hash_table_size_ < s.hash_table_.length)
      ∧ (∃ j, s.hash_table_size_ = 20 * 2 ^ j)
      ∧ s.num_elements_ ≤ s.hash_table_size_
      ∧ check_capacity s
        = (if s.hash_table_size_ ≤ s.num_elements_ then double_size s else s)
      ∧ (check_capacity s = double_size s ↔ s.hash_table_size_ ≤ s.num_elements_)
      ∧ double_size s ≠ s := by
  have hi := h.inv
  have hpos := hi.size_pos
  have hne : HashMapModel.double_size s ≠ s := double_size_ne hpos
  have hcc := check_capacity_eq s hpos
  refine ⟨?_, hi.cell_lt, hi.size_pow, hi.num_le, hcc, ?_, hne⟩
  · obtain ⟨j, hj⟩ := hi.size_pow
    rw [hj, initial_size_]
    have : 1 ≤ 2 ^ j := Nat.one_le_two_pow
    omega
  · rw [hcc]
    split
    · rename_i hle
      exact ⟨fun _ => hle, fun _ => rfl⟩
    · rename_i hlt
      exact ⟨fun e => absurd e.symm hne, fun hle => absurd hle hlt⟩

set_option maxRecDepth 100000 in
/-- C19: an instance, the full table of twenty keys, where `check_capacity` grows. -/
theorem C19_capacity_bound_witness :
    Reachable full_map
      ∧ full_map.hash_table_size_ ≤ full_map.num_elements_
      ∧ 20 ≤ full_map.hash_table_size_
      ∧ (∀ k, full_map.hash_ k % full_map.hash_table_size_ < full_map.hash_table_.length)
      ∧ (∃ j, full_map.hash_table_size_ = 20 * 2 ^ j)
      ∧ full_map.num_elements_ ≤ full_map.hash_table_size_
      ∧ check_capacity full_map
        = (if full_map.hash_table_size_ ≤ full_map.num_elements_ then double_size full_map
          else full_map)
      ∧ (check_capacity full_map = double_size full_map
          ↔ full_map.hash_table_size_ ≤ full_map.num_elements_)
      ∧ double_size full_map ≠ full_map :=
  ⟨Reachable.from_range _ _, by decide,
    C19_capacity_bound full_map (Reachable.from_range _ _)⟩

/-- C20. For every reachable map `m`, the copy-constructed map, and the result of
copy-assigning `m` to any other map `s`, iterate exactly the reverse of the sequence of
pairs that `m` iterates; they have the size of `m` and the same result of `at` for every
key; and the copy of a copy iterates the same sequence as `m`. -/
theorem C20_copy_reverses (m s : HashMap K V) (h : Reachable m) (k : K) :
    iterate (copy m) = (iterate m).reverse
      ∧ iterate (operator_assign s m) = (iterate m).reverse
      ∧ size (copy m) = size m
      ∧ size (operator_assign s m) = size m
      ∧ «at» (copy m) k = «at» m k
      ∧ «at» (operator_assign s m) k = «at» m k
      ∧ iterate (copy (copy m)) = iterate m
      ∧ iterate (operator_assign s (copy m)) = iterate m := by
  have hrev := iterate_copy h.inv
  have hcopy : Inv (copy m) := Inv.copy m
  have hsize : size (copy m) = size m := by
    rw [size_eq_length hcopy, size_eq_length h.inv, hrev, List.length_reverse]
  have hat : «at» (copy m) k = «at» m k :=
    at_eq_of_iterate hcopy h.inv k (fun v => by rw [hrev, List.mem_reverse])
  have htwice : iterate (copy (copy m)) = iterate m := by
    rw [iterate_copy hcopy, hrev, List.reverse_reverse]
  simp only [operator_assign_eq_copy]
  exact ⟨hrev, hrev, hsize, hsize, hat, hat, htwice, htwice⟩

/-- C20: an instance, copying and assigning a map whose table has grown. -/
theorem C20_copy_reverses_witness :
    Reachable grown_map
      ∧ iterate (copy grown_map) = (iterate grown_map).reverse
      ∧ iterate (operator_assign small_map grown_map) = (iterate grown_map).reverse
      ∧ size (copy grown_map) = size grown_map
      ∧ size (operator_assign small_map grown_map) = size grown_map
      ∧ «at» (copy grown_map) 7 = «at» grown_map 7
      ∧ «at» (operator_assign small_map grown_map) 7 = «at» grown_map 7
      ∧ iterate (copy (copy grown_map)) = iterate grown_map
      ∧ iterate (operator_assign small_map (copy grown_map)) = iterate grown_map :=
  ⟨Reachable.from_range _ _,
    C20_copy_reverses grown_map small_map (Reachable.from_range _ _) 7⟩

end claims

end HashMapModel
